import Mathlib

/-!
Verification of the Quantum-Search-vs-Classical-Search repository.

This file gives a shallow embedding of the repository's Python code
(`quantum_search.py`, `quantum_search_sim.py`, `benchmark.py`,
`classical_search.py`, `linear_search.py`, `binary_search.py`,
`dataset_adapters.py`) and proves or refutes the frozen claims about it.

Modelling conventions:
* Python floats are modelled as real numbers (`ℝ`); `math.asin`, `math.pi`,
  `math.sqrt` become `Real.arcsin`, `Real.pi`, `Real.sqrt`, and Python's
  `round` becomes Lean's `round` (the two rounding modes agree whenever the
  argument is not an exact half-integer; no claim below depends on a
  half-integer tie).
* A quantum circuit on `m` qubits is the list of gates the Python code appends
  to the qiskit `QuantumCircuit` object.  Its state vector is a function
  `(Fin m → Bool) → ℂ`; following qiskit's little-endian convention, the basis
  state `b` corresponds to the integer whose bit `q` is `b q` (qubit 0 is the
  least significant bit).
* Gate descriptors carry raw `ℕ` qubit indices exactly as the Python code
  passes them to qiskit; applying a gate whose index is out of range is a
  no-op at the semantic level, but circuit *construction* models qiskit's
  index check: `x_gates_checked` fails with `CircuitError` exactly where
  `qc.x(i)` would raise.
* The Aer simulator's stochastic sampling and wall-clock timing are outside
  the embedding; `run_grover_once` returns the reported iteration count and
  the final pre-measurement state vector, and the repeated-run aggregator is
  modelled over an arbitrary sequence of per-run records.
-/

namespace QCSearch

/-- State vector of an `m`-qubit register: one complex amplitude per basis
state, a basis state being an assignment of a `Bool` to every qubit. -/
abbrev QState (m : ℕ) := (Fin m → Bool) → ℂ

/-- The square root of two as a complex scalar (the `1/√2` factor of the
Hadamard gate). -/
noncomputable def rt2 : ℂ := ((Real.sqrt 2 : ℝ) : ℂ)

/-- Pauli-X on qubit `q`: permutes amplitudes by flipping bit `q` of the
index (`qc.x(q)`). -/
def applyX {m : ℕ} (q : Fin m) (s : QState m) : QState m :=
  fun b => s (Function.update b q (!(b q)))

/-- Pauli-Z on qubit `q`: negates the amplitude of every basis state whose
qubit `q` is one (`qc.z(q)`). -/
def applyZ {m : ℕ} (q : Fin m) (s : QState m) : QState m :=
  fun b => if b q then -s b else s b

/-- Hadamard on qubit `q` (`qc.h(q)`). -/
noncomputable def applyH {m : ℕ} (q : Fin m) (s : QState m) : QState m :=
  fun b =>
    (s (Function.update b q false) +
      (if b q then -1 else 1) * s (Function.update b q true)) / rt2

/-- Multi-controlled X with control qubits `cs` and target `q`
(`qc.mcx(cs, q)`).  A control index that is out of range is treated as
satisfied; the circuits built below only use in-range controls. -/
def applyMCXList {m : ℕ} (cs : List ℕ) (q : Fin m) (s : QState m) : QState m :=
  fun b =>
    if cs.all (fun c => if h : c < m then b ⟨c, h⟩ else true)
    then s (Function.update b q (!(b q)))
    else s b

/-- Gate descriptor: what the Python code appends to the qiskit circuit.
Indices are raw naturals exactly as passed to qiskit. -/
inductive Gate
  | X (q : ℕ)
  | Z (q : ℕ)
  | H (q : ℕ)
  | MCX (cs : List ℕ) (q : ℕ)
deriving DecidableEq

/-- Semantics of one gate on an `m`-qubit state.  An out-of-range qubit index
makes the gate a no-op (circuit construction is where qiskit rejects such
indices; see `x_gates_checked`). -/
noncomputable def applyGate {m : ℕ} : Gate → QState m → QState m
  | Gate.X q, s => if h : q < m then applyX ⟨q, h⟩ s else s
  | Gate.Z q, s => if h : q < m then applyZ ⟨q, h⟩ s else s
  | Gate.H q, s => if h : q < m then applyH ⟨q, h⟩ s else s
  | Gate.MCX cs q, s => if h : q < m then applyMCXList cs ⟨q, h⟩ s else s

/-- Semantics of a gate list, applied left to right (program order). -/
noncomputable def applyGates {m : ℕ} (gs : List Gate) (s : QState m) : QState m :=
  gs.foldl (fun s g => applyGate g s) s

/-- Binary digits of `n`, least significant first (empty for `0`).  The first
argument is structural fuel; `fuel = n` always suffices. -/
def natDigits : ℕ → ℕ → List Bool
  | 0, _ => []
  | fuel + 1, n => if n = 0 then [] else decide (n % 2 = 1) :: natDigits fuel (n / 2)

/-- The string `format(t, f'0{m}b')` as a list of bits, most significant
first: the binary digits of `t` left-padded with zeros to width `m`.  Its
length is `max m (bit-length of t)`, longer than `m` when `t ≥ 2^m`, exactly
like Python's `format`. -/
def tbin (m t : ℕ) : List Bool :=
  (natDigits t t ++ List.replicate (m - (natDigits t t).length) false).reverse

/-- The X gates emitted by the loop
`for i, bit in enumerate(target_bin): if bit == '0': qc.x(i)`
starting at string position `i`. -/
def xGatesOf : List Bool → ℕ → List Gate
  | [], _ => []
  | c :: rest, i =>
      if c then xGatesOf rest (i + 1) else Gate.X i :: xGatesOf rest (i + 1)

/-- The qubit positions receiving an X gate in `xGatesOf`. -/
def xPositions : List Bool → ℕ → List ℕ
  | [], _ => []
  | c :: rest, i =>
      if c then xPositions rest (i + 1) else i :: xPositions rest (i + 1)

/-- Errors a modelled run can surface.  `CircuitError` is qiskit's own
index-out-of-range error when a gate is applied to a nonexistent qubit;
`InvalidTarget` is the error the specification asks for.  The code never
raises the latter. -/
inductive QErr
  | CircuitError
  | InvalidTarget
deriving DecidableEq

/-- The same X-gate loop, but with qiskit's index check: `qc.x(i)` on an
`m`-qubit circuit raises (`CircuitError`) when `i ≥ m`.  Out-of-range
positions whose character is '1' emit no gate and raise nothing, exactly as
in the Python loop. -/
def xGatesChecked (m : ℕ) : List Bool → ℕ → Except QErr (List Gate)
  | [], _ => Except.ok []
  | c :: rest, i =>
      if c then xGatesChecked m rest (i + 1)
      else if i < m then
        match xGatesChecked m rest (i + 1) with
        | Except.ok gs => Except.ok (Gate.X i :: gs)
        | Except.error e => Except.error e
      else Except.error QErr.CircuitError

/-- The multi-controlled-Z block shared by `grover_oracle` and
`grover_diffusion`: `qc.z(0)` when `n_qubits == 1`, otherwise
`qc.h(n-1); qc.mcx(range(n-1), n-1); qc.h(n-1)`. -/
def mczGates (m : ℕ) : List Gate :=
  if m = 1 then [Gate.Z 0]
  else [Gate.H (m - 1), Gate.MCX (List.range (m - 1)) (m - 1), Gate.H (m - 1)]

/-- Gate sequence of `grover_oracle(qc, target, n_qubits)`: X on every string
position holding '0', the multi-controlled-Z block, then the same X gates
again. -/
def grover_oracle_gates (m t : ℕ) : List Gate :=
  xGatesOf (tbin m t) 0 ++ mczGates m ++ xGatesOf (tbin m t) 0

/-- `grover_oracle` with qiskit's index check on the X loops (the H/MCX/Z
indices are always in range for `m ≥ 1`). -/
def grover_oracle_checked (m t : ℕ) : Except QErr (List Gate) :=
  match xGatesChecked m (tbin m t) 0 with
  | Except.ok xs => Except.ok (xs ++ mczGates m ++ xs)
  | Except.error e => Except.error e

/-- `qc.h(range(n_qubits))`. -/
def hAllGates (m : ℕ) : List Gate := (List.range m).map Gate.H

/-- `qc.x(range(n_qubits))`. -/
def xAllGates (m : ℕ) : List Gate := (List.range m).map Gate.X

/-- Gate sequence of `grover_diffusion(qc, n_qubits)`: H on all qubits, X on
all qubits, the multi-controlled-Z block, X on all qubits, H on all qubits. -/
def grover_diffusion_gates (m : ℕ) : List Gate :=
  hAllGates m ++ xAllGates m ++ mczGates m ++ xAllGates m ++ hAllGates m

/-- `compute_optimal_iterations(n_qubits)` over the reals:
`N = 2**n_qubits`; return 1 if `N <= 1`; `theta = asin(1/sqrt(N))`; return 1
if `theta <= 0 or isnan(theta)` (over ℝ the NaN guard is subsumed by the sign
guard); otherwise `max(1, round((pi/4)/theta))`. -/
noncomputable def compute_optimal_iterations (n_qubits : ℕ) : ℤ :=
  let N : ℝ := 2 ^ n_qubits
  if N ≤ 1 then 1
  else
    let theta : ℝ := Real.arcsin (1 / Real.sqrt N)
    if theta ≤ 0 then 1
    else max 1 (round ((Real.pi / 4) / theta))

/-- The iteration count exactly as §4.5 of the specification words it:
`N = 2^n`, `θ = asin(sqrt(markedCount/N))`; if `N ≤ 1` or `θ` is non-finite
return 1 (over ℝ, `θ` is always finite); otherwise `max(1, round((π/4)/θ))`. -/
noncomputable def specComputeIterations (n : ℕ) (markedCount : ℕ) : ℤ :=
  let N : ℝ := 2 ^ n
  if N ≤ 1 then 1
  else
    let theta : ℝ := Real.arcsin (Real.sqrt ((markedCount : ℝ) / N))
    max 1 (round ((Real.pi / 4) / theta))

/-- The floor-based iteration count of `quantum_search_sim.grover_search` and
`benchmark.quantum_search`: `iterations = floor((pi/4) * sqrt(N))`. -/
noncomputable def grover_search_iterations (n_qubits : ℕ) : ℤ :=
  ⌊(Real.pi / 4) * Real.sqrt ((2 : ℝ) ^ n_qubits)⌋

/-- `build_grover_circuit(target, n_qubits, iterations)`: H on all qubits,
then `iterations` repetitions of (oracle; diffusion).  The trailing
`qc.measure` only copies qubits to classical bits and is not a state-vector
gate, so it is not modelled.  The Python code re-runs `grover_oracle` each
iteration, producing the same gates every time. -/
def build_grover_circuit (m t : ℕ) (iterations : ℕ) : Except QErr (List Gate) :=
  match grover_oracle_checked m t with
  | Except.ok og =>
      Except.ok (hAllGates m ++
        (List.replicate iterations (og ++ grover_diffusion_gates m)).flatten)
  | Except.error e => Except.error e

/-- Amplitude vector of the all-zero basis state `|0...0⟩`, the simulator's
initial state. -/
def initState (m : ℕ) : QState m :=
  fun b => if b = (fun _ => false) then 1 else 0

/-- Basis indicator state: amplitude 1 at `c`, 0 elsewhere. -/
def indicator {m : ℕ} (c : Fin m → Bool) : QState m :=
  fun b => if b = c then 1 else 0

/-- `run_grover_once(target, n_qubits)`: compute the planner's iteration
count, build the circuit, and (in place of the Aer shot sampling, which is
stochastic) return the reported iteration count together with the final
pre-measurement state vector.  No validation of `target` is performed, as in
the source. -/
noncomputable def run_grover_once (m t : ℕ) : Except QErr (ℤ × QState m) :=
  let iterations := compute_optimal_iterations m
  match build_grover_circuit m t iterations.toNat with
  | Except.ok gs => Except.ok (iterations, applyGates gs (initState m))
  | Except.error e => Except.error e

/-- Integer value of a basis state under qiskit's convention: qubit `q` is
bit `q` of the index. -/
def bitsToNat : {m : ℕ} → (Fin m → Bool) → ℕ
  | 0, _ => 0
  | _ + 1, b => (if b 0 then 1 else 0) + 2 * bitsToNat (fun i => b i.succ)

/-- Basis state of the integer `j` (bit `q` of `j` at qubit `q`). -/
def natBits (m j : ℕ) : Fin m → Bool := fun q => j.testBit q.val

/-- The integer whose `m`-bit representation is that of `t` reversed. -/
def bitRev (m t : ℕ) : ℕ := bitsToNat (fun q : Fin m => t.testBit (m - 1 - q.val))

/-- Sign accumulated by a wall of Hadamard gates on the qubit positions in
`L`: the product over in-range positions `a ∈ L` of `(-1)^(c a && b a)`.
This is the standard `(-1)^⟨b,c⟩` phase of `H^⊗L` restricted to `L`. -/
def hallSign {m : ℕ} (c b : Fin m → Bool) : List ℕ → ℂ
  | [] => 1
  | a :: L =>
      (if h : a < m then (if c ⟨a, h⟩ && b ⟨a, h⟩ then -1 else 1) else 1) *
        hallSign c b L

end QCSearch

namespace ClSearch

/-- `classical_search(dataset, target)` from `classical_search.py` (and the
identical loop in `benchmark.py`): linear scan counting steps; returns
`(index, steps)`, with index `-1` and `steps = len(dataset)` when the target
is absent. -/
def classical_search {α : Type} [DecidableEq α] : List α → α → ℤ × ℕ
  | [], _ => (-1, 0)
  | v :: rest, t =>
      if v = t then (0, 1)
      else
        let r := classical_search rest t
        (if r.1 = -1 then -1 else r.1 + 1, r.2 + 1)

/-- `dataset.index(target)` wrapped in try/except: the first index of the
target, or `-1` when a `ValueError` is caught. -/
def indexOfOrNeg {α : Type} [DecidableEq α] : List α → α → ℤ
  | [], _ => -1
  | v :: rest, t =>
      if v = t then 0
      else
        let i := indexOfOrNeg rest t
        if i = -1 then -1 else i + 1

/-- The explicit Python loop of `linear_search_once`: enumerate, count a step
per iteration, break at the first hit; returns `(idx_py, steps)`. -/
def pyLinearLoop {α : Type} [DecidableEq α] : List α → α → ℤ × ℕ
  | [], _ => (-1, 0)
  | v :: rest, t =>
      if v = t then (0, 1)
      else
        let r := pyLinearLoop rest t
        (if r.1 = -1 then -1 else r.1 + 1, r.2 + 1)

/-- `linear_search_once(dataset, target)` restricted to its index and step
outputs (the wall-clock fields are not modelled): computes `idx_c` via
`.index`, `idx_py` and `steps` via the loop, and returns
`idx_c if idx_c != -1 else idx_py` with the loop's step count. -/
def linear_search_once {α : Type} [DecidableEq α] (ds : List α) (t : α) : ℤ × ℕ :=
  let idxc := indexOfOrNeg ds t
  let r := pyLinearLoop ds t
  (if idxc ≠ -1 then idxc else r.1, r.2)

/-- The `while lo <= hi` loop of `binary_search_once`.  The first argument is
structural fuel; since the interval `[lo, hi]` loses at least one element per
iteration, `ds.length + 1` units always suffice (proved where used).  On ℤ
with a nonnegative numerator, Lean's `/` agrees with Python's `//`. -/
def bsLoop (ds : List ℤ) (t : ℤ) : ℕ → ℤ → ℤ → ℕ → ℤ × ℕ
  | 0, _, _, steps => (-1, steps)
  | fuel + 1, lo, hi, steps =>
      if lo ≤ hi then
        let mid := (lo + hi) / 2
        let v := ds.getD mid.toNat 0
        if v = t then (mid, steps + 1)
        else if v < t then bsLoop ds t fuel (mid + 1) hi (steps + 1)
        else bsLoop ds t fuel lo (mid - 1) (steps + 1)
      else (-1, steps)

/-- `binary_search_once(sorted_dataset, target)` restricted to its index and
step outputs: `lo, hi = 0, len - 1`, then the loop. -/
def binary_search_once (ds : List ℤ) (t : ℤ) : ℤ × ℕ :=
  bsLoop ds t (ds.length + 1) 0 ((ds.length : ℤ) - 1) 0

/-- `binary_search_with_optional_sort(dataset, target, do_sort)` restricted
to `(index, steps)` and `sorted_dataset` (timing fields not modelled).
Python's stable `sorted` is modelled by insertion sort, which produces the
same list for any comparable elements. -/
def binary_search_with_optional_sort (ds : List ℤ) (t : ℤ) (do_sort : Bool) :
    (ℤ × ℕ) × List ℤ :=
  let sorted_ds := if do_sort then List.insertionSort (· ≤ ·) ds else ds
  (binary_search_once sorted_ds t, sorted_ds)

end ClSearch

namespace Agg

/-- Per-run record of `run_grover_once` as consumed by the aggregator.  The
float fields are modelled as rationals; the histogram `counts` is opaque to
the aggregator, so its type is a parameter. -/
structure RunRec (α : Type) where
  iterations : ℤ
  success_rate : ℚ
  elapsed_exec_time : ℚ
  counts : α
  transpile_time : ℚ
deriving DecidableEq

/-- `np.median` on a list: sort ascending, take the middle element (odd
length) or the mean of the two middle elements (even length).  NumPy sorts
with an unstable sort, but for scalar values the sorted list is unique, so
insertion sort is a faithful model. -/
def npMedian (xs : List ℚ) : ℚ :=
  let s := List.insertionSort (· ≤ ·) xs
  if s.length % 2 = 1 then s.getD (s.length / 2) 0
  else (s.getD (s.length / 2 - 1) 0 + s.getD (s.length / 2) 0) / 2

/-- Python's `int()` on a rational: truncation toward zero. -/
def intTrunc (q : ℚ) : ℤ := Int.tdiv q.num (q.den : ℤ)

/-- `run_grover_repeated(...)`: run `repeats` times, collect the records, and
aggregate — `int(np.median(...))` for iterations, `np.median` for the float
fields, and `records[-1]['counts']` for the histogram.  The stochastic
per-run outcomes are abstracted as a function from the run number to its
record; with `repeats = 0` the Python code raises (`records[-1]` on an empty
list), modelled as `none`. -/
def run_grover_repeated {α : Type} (repeats : ℕ) (runOnce : ℕ → RunRec α) :
    Option (RunRec α) :=
  let records := (List.range repeats).map runOnce
  match records.getLast? with
  | none => none
  | some last =>
      some
        { iterations := intTrunc (npMedian (records.map (fun r => (r.iterations : ℚ))))
          success_rate := npMedian (records.map (fun r => r.success_rate))
          elapsed_exec_time := npMedian (records.map (fun r => r.elapsed_exec_time))
          counts := last.counts
          transpile_time := npMedian (records.map (fun r => r.transpile_time)) }

/-- Concrete record sequence used by witness instantiations. -/
def witnessRuns : ℕ → RunRec ℕ :=
  fun i => { iterations := 2, success_rate := (i : ℚ), elapsed_exec_time := (i : ℚ),
             counts := i, transpile_time := (i : ℚ) }

end Agg

namespace DataLoad

/-- Result record of `load_and_find_target`. -/
structure LoadResult (α : Type) where
  dataset : List ℕ
  target_value : ℕ
  target_index : ℕ
  matched_row : α
deriving DecidableEq

/-- The record-processing loop of `load_and_find_target`: `check_and_add`
appends `encode(record)` to the dataset and, if no match was found yet and
the record contains the target string, remembers `(encoded, index, record)`.
The file parsing that produces the record list (line stripping, CSV joining,
JSON decoding) is out of scope; `hasTarget r` models
`target.lower() in str(r).lower()` and `encode` models the SHA-256 digest. -/
def lfLoop {α : Type} (encode : α → ℕ) (hasTarget : α → Bool) :
    List α → List ℕ → Option (ℕ × ℕ × α) → List ℕ × Option (ℕ × ℕ × α)
  | [], ds, found => (ds, found)
  | r :: rest, ds, found =>
      let enc := encode r
      let ds2 := ds ++ [enc]
      let found2 :=
        match found with
        | some x => some x
        | none => if hasTarget r then some (enc, ds2.length - 1, r) else none
      lfLoop encode hasTarget rest ds2 found2

/-- `load_and_find_target` over an already-parsed record list: process all
records, then raise `ValueError("Target not found in dataset")` when no
record matched. -/
def load_and_find_target {α : Type} (encode : α → ℕ) (hasTarget : α → Bool)
    (records : List α) : Except String (LoadResult α) :=
  match lfLoop encode hasTarget records [] none with
  | (_, none) => Except.error "Target not found in dataset"
  | (ds, some (tv, ti, mr)) => Except.ok ⟨ds, tv, ti, mr⟩

/-- The extension dispatch of `load_and_find_target`: a suffix other than
`.txt`, `.log`, `.csv`, `.json` raises
`ValueError(f"Unsupported dataset type: {ext}")` before any record is read. -/
def load_with_ext {α : Type} (ext : String) (encode : α → ℕ)
    (hasTarget : α → Bool) (records : List α) : Except String (LoadResult α) :=
  if ext = ".txt" ∨ ext = ".log" ∨ ext = ".csv" ∨ ext = ".json" then
    load_and_find_target encode hasTarget records
  else Except.error ("Unsupported dataset type: " ++ ext)

/-- First matching record and its index, the specification-side description
of what the loop's match tracking computes. -/
def firstMatch {α : Type} (hasTarget : α → Bool) : List α → Option (ℕ × α)
  | [] => none
  | r :: rest =>
      if hasTarget r then some (0, r)
      else (firstMatch hasTarget rest).map (fun p => (p.1 + 1, p.2))

end DataLoad

/-! ## Classical linear search: lemmas for C8 -/

namespace ClSearch

theorem classical_search_not_mem {α : Type} [DecidableEq α] :
    ∀ (ds : List α) (t : α), t ∉ ds → classical_search ds t = (-1, ds.length)
  | [], t, _ => rfl
  | v :: rest, t, h => by
    have hv : ¬ v = t := fun hvt => h (hvt ▸ List.mem_cons_self v rest)
    have hrest : t ∉ rest := fun hm => h (List.mem_cons_of_mem v hm)
    simp only [classical_search, if_neg hv, classical_search_not_mem rest t hrest,
      List.length_cons]
    rfl

theorem classical_search_found {α : Type} [DecidableEq α] :
    ∀ (ds : List α) (t : α) (i : ℕ) (hi : i < ds.length),
      ds.get ⟨i, hi⟩ = t →
      (∀ j (hj : j < ds.length), j < i → ds.get ⟨j, hj⟩ ≠ t) →
      classical_search ds t = ((i : ℤ), i + 1)
  | [], _, i, hi, _, _ => absurd hi (by simp)
  | v :: rest, t, 0, hi, hget, _ => by
    simp only [List.get] at hget
    simp [classical_search, hget]
  | v :: rest, t, i + 1, hi, hget, hmin => by
    have hv : ¬ v = t := by
      have := hmin 0 (by simp) (by omega)
      simpa using this
    have hget2 : rest.get ⟨i, by simpa using Nat.lt_of_succ_lt_succ hi⟩ = t := by
      simpa using hget
    have hmin2 : ∀ j (hj : j < rest.length), j < i → rest.get ⟨j, hj⟩ ≠ t := by
      intro j hj hji
      have := hmin (j + 1) (by simpa using Nat.succ_lt_succ hj) (by omega)
      simpa using this
    have hrec := classical_search_found rest t i (by simpa using Nat.lt_of_succ_lt_succ hi)
      hget2 hmin2
    simp only [classical_search, if_neg hv, hrec]
    have : ((i : ℤ)) ≠ -1 := by omega
    simp only [if_neg this]
    simp only [Prod.mk.injEq]
    push_cast
    exact ⟨by ring, trivial⟩

theorem pyLinearLoop_eq_classical {α : Type} [DecidableEq α] :
    ∀ (ds : List α) (t : α), pyLinearLoop ds t = classical_search ds t
  | [], _ => rfl
  | v :: rest, t => by
    simp only [pyLinearLoop, classical_search, pyLinearLoop_eq_classical rest t]

theorem indexOfOrNeg_eq_fst {α : Type} [DecidableEq α] :
    ∀ (ds : List α) (t : α), indexOfOrNeg ds t = (classical_search ds t).1
  | [], _ => rfl
  | v :: rest, t => by
    simp only [indexOfOrNeg, classical_search, indexOfOrNeg_eq_fst rest t]
    by_cases hv : v = t <;> simp [hv]

theorem linear_search_once_eq_classical {α : Type} [DecidableEq α]
    (ds : List α) (t : α) : linear_search_once ds t = classical_search ds t := by
  simp only [linear_search_once, indexOfOrNeg_eq_fst, pyLinearLoop_eq_classical]
  simp [ite_self]

end ClSearch

/-- C8: for every list and target, `classical_search` (and the loop of
`linear_search_once`) returns `(i, i+1)` where `i` is the smallest index
holding the target when the target occurs, and `(-1, len(dataset))` when it
does not. -/
theorem C8_linear_search_first_occurrence {α : Type} [DecidableEq α]
    (ds : List α) (t : α) :
    (t ∉ ds →
      ClSearch.classical_search ds t = (-1, ds.length) ∧
      ClSearch.linear_search_once ds t = (-1, ds.length)) ∧
    (∀ i (hi : i < ds.length), ds.get ⟨i, hi⟩ = t →
      (∀ j (hj : j < ds.length), j < i → ds.get ⟨j, hj⟩ ≠ t) →
      ClSearch.classical_search ds t = ((i : ℤ), i + 1) ∧
      ClSearch.linear_search_once ds t = ((i : ℤ), i + 1)) := by
  constructor
  · intro h
    refine ⟨ClSearch.classical_search_not_mem ds t h, ?_⟩
    rw [ClSearch.linear_search_once_eq_classical]
    exact ClSearch.classical_search_not_mem ds t h
  · intro i hi hget hmin
    refine ⟨ClSearch.classical_search_found ds t i hi hget hmin, ?_⟩
    rw [ClSearch.linear_search_once_eq_classical]
    exact ClSearch.classical_search_found ds t i hi hget hmin

/-- Witness for C8 at the concrete dataset `[5, 2, 7, 2]` and target `2`:
the first occurrence is at index 1 and takes 2 steps. -/
theorem C8_witness :
    ClSearch.classical_search [5, 2, 7, 2] 2 = ((1 : ℤ), 2) ∧
    ClSearch.linear_search_once [5, 2, 7, 2] 2 = ((1 : ℤ), 2) := by
  have h := (C8_linear_search_first_occurrence [5, 2, 7, 2] 2).2 1 (by decide)
    (by decide) (by decide)
  simpa using h

/-! ## Binary search: lemmas for C9 -/

namespace ClSearch

theorem sorted_get_le (ds : List ℤ) (hs : List.Sorted (· ≤ ·) ds)
    {i j : ℕ} (hi : i < ds.length) (hj : j < ds.length) (hij : i ≤ j) :
    ds.get ⟨i, hi⟩ ≤ ds.get ⟨j, hj⟩ := by
  rcases Nat.eq_or_lt_of_le hij with h | h
  · subst h; exact le_refl _
  · exact hs.rel_get_of_lt (by exact h)

theorem bsLoop_correct (ds : List ℤ) (t : ℤ) (hs : List.Sorted (· ≤ ·) ds) :
    ∀ (fuel : ℕ) (lo hi : ℤ) (steps : ℕ),
      0 ≤ lo → hi < (ds.length : ℤ) →
      (hi + 1 - lo).toNat ≤ fuel →
      (∀ j (hj : j < ds.length), ds.get ⟨j, hj⟩ = t → lo ≤ (j : ℤ) ∧ (j : ℤ) ≤ hi) →
      (((bsLoop ds t fuel lo hi steps).1 = -1 → t ∉ ds) ∧
       ((bsLoop ds t fuel lo hi steps).1 ≠ -1 →
         0 ≤ (bsLoop ds t fuel lo hi steps).1 ∧
         (bsLoop ds t fuel lo hi steps).1.toNat < ds.length ∧
         ds.getD (bsLoop ds t fuel lo hi steps).1.toNat 0 = t)) := by
  intro fuel
  induction fuel with
  | zero =>
    intro lo hi steps hlo hhi hfuel hinv
    have hlh : hi < lo := by omega
    constructor
    · intro _ hmem
      rcases List.mem_iff_get.1 hmem with ⟨⟨j, hj⟩, hget⟩
      have := hinv j hj hget
      omega
    · intro hne
      exact absurd rfl hne
  | succ fuel ih =>
    intro lo hi steps hlo hhi hfuel hinv
    by_cases hlh : lo ≤ hi
    · have hmidlo : lo ≤ (lo + hi) / 2 := by omega
      have hmidhi : (lo + hi) / 2 ≤ hi := by omega
      have hmlen : ((lo + hi) / 2).toNat < ds.length := by omega
      have hacc : ds.getD ((lo + hi) / 2).toNat 0 = ds.get ⟨((lo + hi) / 2).toNat, hmlen⟩ := by
        rw [List.getD_eq_getElem?_getD, List.getElem?_eq_getElem hmlen]
        rfl
      by_cases hvt : ds.getD ((lo + hi) / 2).toNat 0 = t
      · rw [bsLoop]
        simp only [if_pos hlh, if_pos hvt]
        refine ⟨fun h1 => absurd h1 (by omega), fun _ => ⟨by omega, hmlen, hvt⟩⟩
      · by_cases hlt : ds.getD ((lo + hi) / 2).toNat 0 < t
        · have hstep := ih ((lo + hi) / 2 + 1) hi (steps + 1) (by omega) hhi (by omega) ?_
          · rw [bsLoop]
            simp only [if_pos hlh, if_neg hvt, if_pos hlt]
            exact hstep
          · intro j hj hget
            have hold := hinv j hj hget
            refine ⟨?_, hold.2⟩
            by_contra hcon
            have hjm : j ≤ ((lo + hi) / 2).toNat := by omega
            have := sorted_get_le ds hs hj hmlen hjm
            rw [hget, ← hacc] at this
            omega
        · have hstep := ih lo ((lo + hi) / 2 - 1) (steps + 1) hlo (by omega) (by omega) ?_
          · rw [bsLoop]
            simp only [if_pos hlh, if_neg hvt, if_neg hlt]
            exact hstep
          · intro j hj hget
            have hold := hinv j hj hget
            refine ⟨hold.1, ?_⟩
            by_contra hcon
            have hjm : ((lo + hi) / 2).toNat ≤ j := by omega
            have := sorted_get_le ds hs hmlen hj hjm
            rw [hget, ← hacc] at this
            omega
    · rw [bsLoop]
      simp only [if_neg hlh]
      constructor
      · intro _ hmem
        rcases List.mem_iff_get.1 hmem with ⟨⟨j, hj⟩, hget⟩
        have := hinv j hj hget
        omega
      · intro hne
        exact absurd rfl hne

theorem binary_search_once_correct (ds : List ℤ) (t : ℤ)
    (hs : List.Sorted (· ≤ ·) ds) :
    ((binary_search_once ds t).1 = -1 → t ∉ ds) ∧
    ((binary_search_once ds t).1 ≠ -1 →
      0 ≤ (binary_search_once ds t).1 ∧
      (binary_search_once ds t).1.toNat < ds.length ∧
      ds.getD (binary_search_once ds t).1.toNat 0 = t) := by
  have h := bsLoop_correct ds t hs (ds.length + 1) 0 ((ds.length : ℤ) - 1) 0
    (by omega) (by omega) (by omega) (by intro j hj _; omega)
  exact h

end ClSearch

/-- C9: on a list sorted in non-decreasing order, `binary_search_once`
returns an index holding the target exactly when the target occurs, and `-1`
exactly when it does not; without the sortedness precondition the result can
be `-1` even though the target is present, as when
`binary_search_with_optional_sort` is called with `do_sort = False` on the
unsorted `[5, 2, 9, 1, 7, 3]` with target `2`. -/
theorem C9_binary_search_correct_on_sorted :
    (∀ (ds : List ℤ) (t : ℤ), List.Sorted (· ≤ ·) ds →
      (((ClSearch.binary_search_once ds t).1 = -1 ↔ t ∉ ds) ∧
       ((ClSearch.binary_search_once ds t).1 ≠ -1 →
         0 ≤ (ClSearch.binary_search_once ds t).1 ∧
         (ClSearch.binary_search_once ds t).1.toNat < ds.length ∧
         ds.getD (ClSearch.binary_search_once ds t).1.toNat 0 = t))) ∧
    (ClSearch.binary_search_with_optional_sort [5, 2, 9, 1, 7, 3] 2 false).1.1 = -1 ∧
    (2 : ℤ) ∈ [5, 2, 9, 1, 7, 3] := by
  refine ⟨?_, by decide, by decide⟩
  intro ds t hs
  obtain ⟨h1, h2⟩ := ClSearch.binary_search_once_correct ds t hs
  refine ⟨⟨h1, ?_⟩, h2⟩
  intro hnm
  by_contra hne
  obtain ⟨_, hlen, hget⟩ := h2 hne
  apply hnm
  rw [List.getD_eq_getElem?_getD, List.getElem?_eq_getElem hlen] at hget
  simp only [Option.getD_some] at hget
  rw [← hget]
  exact List.getElem_mem hlen

/-- Witness for C9 on the sorted list `[1, 3, 5]` with target `3`. -/
theorem C9_witness :
    List.Sorted (· ≤ ·) [(1 : ℤ), 3, 5] ∧
    (((ClSearch.binary_search_once [(1 : ℤ), 3, 5] 3).1 = -1 ↔ (3 : ℤ) ∉ [(1 : ℤ), 3, 5]) ∧
     ((ClSearch.binary_search_once [(1 : ℤ), 3, 5] 3).1 ≠ -1 →
       0 ≤ (ClSearch.binary_search_once [(1 : ℤ), 3, 5] 3).1 ∧
       (ClSearch.binary_search_once [(1 : ℤ), 3, 5] 3).1.toNat < ([(1 : ℤ), 3, 5] : List ℤ).length ∧
       ([(1 : ℤ), 3, 5] : List ℤ).getD (ClSearch.binary_search_once [(1 : ℤ), 3, 5] 3).1.toNat 0 = 3)) :=
  ⟨by decide, C9_binary_search_correct_on_sorted.1 [(1 : ℤ), 3, 5] 3 (by decide)⟩

/-! ## Repeated-run aggregation: lemmas for C6 -/

namespace Agg

theorem range_map_getLast {α : Type} (k : ℕ) (f : ℕ → α) (h : 1 ≤ k) :
    ((List.range k).map f).getLast? = some (f (k - 1)) := by
  rw [List.getLast?_eq_getElem?]
  have hlen : ((List.range k).map f).length = k := by simp
  rw [hlen, List.getElem?_map, List.getElem?_range (by omega)]
  rfl

theorem insertionSort_replicate (n : ℕ) (c : ℚ) :
    List.insertionSort (· ≤ ·) (List.replicate n c) = List.replicate n c := by
  induction n with
  | zero => rfl
  | succ n ih =>
    rw [List.replicate_succ, List.insertionSort, ih]
    cases n with
    | zero => rfl
    | succ n => rw [List.replicate_succ, List.orderedInsert, if_pos (le_refl c)]

theorem npMedian_replicate (n : ℕ) (c : ℚ) (h : 1 ≤ n) :
    npMedian (List.replicate n c) = c := by
  unfold npMedian
  rw [insertionSort_replicate]
  have hget : ∀ i, i < n → (List.replicate n c).getD i 0 = c := by
    intro i hi
    rw [List.getD_eq_getElem?_getD, List.getElem?_replicate, if_pos hi]
    rfl
  simp only [List.length_replicate]
  by_cases hpar : n % 2 = 1
  · rw [if_pos hpar, hget _ (by omega)]
  · rw [if_neg hpar, hget _ (by omega), hget _ (by omega)]
    ring

theorem intTrunc_intCast (z : ℤ) : intTrunc ((z : ℤ) : ℚ) = z := by
  unfold intTrunc
  rw [Rat.intCast_num, Rat.intCast_den]
  exact Int.tdiv_one z

end Agg

/-- C6: for every `repeats ≥ 1`, `run_grover_repeated` returns a record whose
`iterations`, `success_rate`, `elapsed_exec_time` and `transpile_time`
fields are obtained by the `np.median` of the corresponding per-run values
(`iterations` additionally passing through Python's `int()`, which is the
identity whenever the per-run iteration counts coincide, as they do for the
deterministic planner), and whose `counts` histogram is exactly that of the
final run, not a merge of all runs. -/
theorem C6_run_grover_repeated_median {α : Type} (repeats : ℕ)
    (runOnce : ℕ → Agg.RunRec α) (h : 1 ≤ repeats) :
    Agg.run_grover_repeated repeats runOnce =
      some
        { iterations :=
            Agg.intTrunc (Agg.npMedian (((List.range repeats).map runOnce).map
              (fun r => (r.iterations : ℚ))))
          success_rate :=
            Agg.npMedian (((List.range repeats).map runOnce).map
              (fun r => r.success_rate))
          elapsed_exec_time :=
            Agg.npMedian (((List.range repeats).map runOnce).map
              (fun r => r.elapsed_exec_time))
          counts := (runOnce (repeats - 1)).counts
          transpile_time :=
            Agg.npMedian (((List.range repeats).map runOnce).map
              (fun r => r.transpile_time)) } ∧
    ((∀ i, i < repeats → (runOnce i).iterations = (runOnce 0).iterations) →
      Agg.intTrunc (Agg.npMedian (((List.range repeats).map runOnce).map
        (fun r => (r.iterations : ℚ)))) = (runOnce 0).iterations) := by
  constructor
  · simp only [Agg.run_grover_repeated, Agg.range_map_getLast repeats runOnce h]
  · intro hconst
    have hmap : ((List.range repeats).map runOnce).map (fun r => (r.iterations : ℚ)) =
        List.replicate repeats (((runOnce 0).iterations : ℤ) : ℚ) := by
      rw [List.map_map, List.eq_replicate_iff]
      refine ⟨by simp, ?_⟩
      intro b hb
      rcases List.mem_map.1 hb with ⟨i, hi, hbi⟩
      rw [← hbi]
      simp only [Function.comp_apply]
      rw [hconst i (List.mem_range.1 hi)]
    rw [hmap, Agg.npMedian_replicate repeats _ h, Agg.intTrunc_intCast]

/-- Witness for C6 at `repeats = 3` and the concrete record sequence
`witnessRuns`. -/
theorem C6_witness :
    Agg.run_grover_repeated 3 Agg.witnessRuns =
      some
        { iterations :=
            Agg.intTrunc (Agg.npMedian (((List.range 3).map Agg.witnessRuns).map
              (fun r => (r.iterations : ℚ))))
          success_rate :=
            Agg.npMedian (((List.range 3).map Agg.witnessRuns).map
              (fun r => r.success_rate))
          elapsed_exec_time :=
            Agg.npMedian (((List.range 3).map Agg.witnessRuns).map
              (fun r => r.elapsed_exec_time))
          counts := (Agg.witnessRuns (3 - 1)).counts
          transpile_time :=
            Agg.npMedian (((List.range 3).map Agg.witnessRuns).map
              (fun r => r.transpile_time)) } ∧
    Agg.intTrunc (Agg.npMedian (((List.range 3).map Agg.witnessRuns).map
      (fun r => (r.iterations : ℚ)))) = (Agg.witnessRuns 0).iterations :=
  ⟨(C6_run_grover_repeated_median 3 Agg.witnessRuns (by decide)).1,
   (C6_run_grover_repeated_median 3 Agg.witnessRuns (by decide)).2
     (fun _ _ => rfl)⟩

/-! ## Dataset adapter: lemmas for C10 -/

namespace DataLoad

theorem lfLoop_spec {α : Type} (encode : α → ℕ) (hasTarget : α → Bool) :
    ∀ (records : List α) (ds : List ℕ) (found : Option (ℕ × ℕ × α)),
      lfLoop encode hasTarget records ds found =
        (ds ++ records.map encode,
          match found with
          | some x => some x
          | none => (firstMatch hasTarget records).map
              (fun p => (encode p.2, ds.length + p.1, p.2)))
  | [], ds, found => by
    cases found <;> simp [lfLoop, firstMatch]
  | r :: rest, ds, found => by
    show lfLoop encode hasTarget rest (ds ++ [encode r]) _ = _
    rw [lfLoop_spec encode hasTarget rest]
    cases found with
    | some x => simp
    | none =>
      cases hr : hasTarget r with
      | true => simp [hr, firstMatch]
      | false =>
        simp only [hr, firstMatch, Bool.false_eq_true, if_false]
        cases hfm : firstMatch hasTarget rest with
        | none => simp
        | some p =>
          have h1 : ds ++ [encode r] ++ List.map encode rest =
              ds ++ List.map encode (r :: rest) := by simp
          have h2 : (ds ++ [encode r]).length + p.1 = ds.length + (p.1 + 1) := by
            rw [List.length_append, List.length_singleton]
            omega
          rw [Prod.mk.injEq]
          refine ⟨h1, ?_⟩
          simp only [Option.map_some, Option.map_some']
          rw [h2]

theorem firstMatch_none {α : Type} (hasTarget : α → Bool) :
    ∀ (records : List α), firstMatch hasTarget records = none →
      ∀ r ∈ records, hasTarget r = false
  | [], _, r, hr => absurd hr (List.not_mem_nil r)
  | v :: rest, h, r, hr => by
    rw [firstMatch] at h
    cases hv : hasTarget v with
    | true => rw [hv] at h; simp at h
    | false =>
      rw [hv] at h
      simp only [Bool.false_eq_true, if_false] at h
      rcases List.mem_cons.1 hr with hrv | hrr
      · subst hrv; exact hv
      · have hrest : firstMatch hasTarget rest = none := by
          by_contra hne
          rcases Option.ne_none_iff_exists.1 hne with ⟨p, hp⟩
          rw [← hp] at h
          simp at h
        exact firstMatch_none hasTarget rest hrest r hrr

theorem firstMatch_some {α : Type} (hasTarget : α → Bool) :
    ∀ (records : List α) (j : ℕ) (r : α),
      firstMatch hasTarget records = some (j, r) →
      ∃ hj : j < records.length,
        records.get ⟨j, hj⟩ = r ∧ hasTarget r = true ∧
        ∀ k (hk : k < records.length), k < j →
          hasTarget (records.get ⟨k, hk⟩) = false
  | [], j, r, h => by simp [firstMatch] at h
  | v :: rest, j, r, h => by
    rw [firstMatch] at h
    cases hv : hasTarget v with
    | true =>
      rw [hv] at h
      simp only [if_true] at h
      simp only [Option.some.injEq, Prod.mk.injEq] at h
      obtain ⟨hj0, hvr⟩ := h
      subst hj0; subst hvr
      exact ⟨by simp, rfl, hv, fun k hk hk0 => absurd hk0 (by omega)⟩
    | false =>
      rw [hv] at h
      simp only [Bool.false_eq_true, if_false] at h
      cases hfm : firstMatch hasTarget rest with
      | none => rw [hfm] at h; simp at h
      | some p =>
        rw [hfm] at h
        simp only [Option.map_some, Option.map_some', Option.some.injEq] at h
        obtain ⟨hjlt, hget, hht, hmin⟩ :=
          firstMatch_some hasTarget rest p.1 p.2 (by rw [hfm])
        have hj1 : p.1 + 1 = j := congrArg Prod.fst h
        have hpr : p.2 = r := congrArg Prod.snd h
        subst hj1
        subst hpr
        refine ⟨by simpa using Nat.succ_lt_succ hjlt, ?_, hht, ?_⟩
        · simpa using hget
        · intro k hk hkj
          cases k with
          | zero => simpa using hv
          | succ k2 =>
            have hk2 : k2 < rest.length := by simpa using hk
            have := hmin k2 hk2 (by omega)
            simpa using this

end DataLoad

/-- C10: `load_and_find_target` returns a dataset that is exactly the encode
image of the loaded records, with `target_index` the index of the first
record containing the target, `matched_row` that record, and
`target_value = encode(matched_row) = dataset[target_index]`; it raises
`ValueError` exactly when no record matches, and an unsupported file
extension raises `ValueError` up front. -/
theorem C10_load_and_find_target_spec {α : Type} (encode : α → ℕ)
    (hasTarget : α → Bool) (records : List α) :
    (DataLoad.firstMatch hasTarget records = none →
      (∀ r ∈ records, hasTarget r = false) ∧
      DataLoad.load_and_find_target encode hasTarget records =
        Except.error "Target not found in dataset") ∧
    (∀ (j : ℕ) (r : α), DataLoad.firstMatch hasTarget records = some (j, r) →
      DataLoad.load_and_find_target encode hasTarget records =
        Except.ok ⟨records.map encode, encode r, j, r⟩ ∧
      (∃ hj : j < records.length, records.get ⟨j, hj⟩ = r) ∧
      hasTarget r = true ∧
      (∀ k (hk : k < records.length), k < j →
        hasTarget (records.get ⟨k, hk⟩) = false) ∧
      (records.map encode).getD j 0 = encode r) ∧
    (∀ ext : String,
      ¬(ext = ".txt" ∨ ext = ".log" ∨ ext = ".csv" ∨ ext = ".json") →
      DataLoad.load_with_ext ext encode hasTarget records =
        Except.error ("Unsupported dataset type: " ++ ext)) := by
  refine ⟨?_, ?_, ?_⟩
  · intro hnone
    refine ⟨DataLoad.firstMatch_none hasTarget records hnone, ?_⟩
    unfold DataLoad.load_and_find_target
    rw [DataLoad.lfLoop_spec, hnone]
    rfl
  · intro j r hsome
    obtain ⟨hjlt, hget, hht, hmin⟩ :=
      DataLoad.firstMatch_some hasTarget records j r hsome
    refine ⟨?_, ⟨hjlt, hget⟩, hht, hmin, ?_⟩
    · unfold DataLoad.load_and_find_target
      rw [DataLoad.lfLoop_spec, hsome]
      simp
    · rw [List.getD_eq_getElem?_getD, List.getElem?_map]
      rw [List.getElem?_eq_getElem hjlt]
      simp only [Option.map_some, Option.map_some', Option.getD_some]
      rw [← hget]
      simp
  · intro ext hext
    unfold DataLoad.load_with_ext
    rw [if_neg hext]

/-- Witness for C10 at the record list `[4, 7]` with `hasTarget` matching `7`
and `encode` the successor function: the first match is at index 1. -/
theorem C10_witness :
    (DataLoad.load_and_find_target Nat.succ (fun x => decide (x = 7)) [4, 7] =
      Except.ok ⟨[4, 7].map Nat.succ, Nat.succ 7, 1, 7⟩ ∧
      (∃ hj : 1 < ([4, 7] : List ℕ).length, ([4, 7] : List ℕ).get ⟨1, hj⟩ = 7) ∧
      (fun x => decide (x = 7)) 7 = true ∧
      (∀ k (hk : k < ([4, 7] : List ℕ).length), k < 1 →
        (fun x => decide (x = 7)) (([4, 7] : List ℕ).get ⟨k, hk⟩) = false) ∧
      (([4, 7] : List ℕ).map Nat.succ).getD 1 0 = Nat.succ 7) ∧
    DataLoad.load_with_ext ".xml" Nat.succ (fun x => decide (x = 7)) [4, 7] =
      Except.error ("Unsupported dataset type: " ++ ".xml") :=
  ⟨(C10_load_and_find_target_spec Nat.succ (fun x => decide (x = 7)) [4, 7]).2.1
      1 7 (by decide),
   (C10_load_and_find_target_spec Nat.succ (fun x => decide (x = 7)) [4, 7]).2.2
      ".xml" (by decide)⟩

/-! ## Iteration planner: lemmas for C1 and C4 -/

namespace QCSearch

theorem roundEqOf (x : ℝ) (z : ℤ) (h1 : (z : ℝ) ≤ x + 1/2) (h2 : x + 1/2 < z + 1) :
    round x = z := by
  rw [round_eq]
  exact Int.floor_eq_iff.mpr ⟨h1, h2⟩

theorem arcsin_one_div_sqrt_two_pi : Real.arcsin (1 / Real.sqrt 2) = Real.pi / 4 := by
  have h1 : (1 : ℝ) / Real.sqrt 2 = Real.sqrt 2 / 2 := by
    rw [div_eq_div_iff (Real.sqrt_pos.2 (by norm_num)).ne' (by norm_num : (2:ℝ) ≠ 0),
      one_mul]
    exact (Real.mul_self_sqrt (by norm_num)).symm
  rw [h1, ← Real.sin_pi_div_four, Real.arcsin_sin] <;> nlinarith [Real.pi_pos]

theorem arcsin_one_half_pi : Real.arcsin (1/2 : ℝ) = Real.pi / 6 := by
  rw [← Real.sin_pi_div_six, Real.arcsin_sin] <;> nlinarith [Real.pi_pos]

theorem compute_optimal_iterations_pos_form (n : ℕ) (hn : 1 ≤ n) :
    compute_optimal_iterations n =
      max 1 (round ((Real.pi / 4) / Real.arcsin (1 / Real.sqrt ((2:ℝ) ^ n)))) := by
  have hN : ¬(((2:ℝ) ^ n) ≤ 1) := by
    push_neg
    exact one_lt_pow₀ (by norm_num) (by omega)
  have hth : 0 < Real.arcsin (1 / Real.sqrt ((2:ℝ) ^ n)) :=
    Real.arcsin_pos.2 (by positivity)
  simp only [compute_optimal_iterations]
  rw [if_neg hN, if_neg (not_le.2 hth)]

theorem compute_optimal_iterations_one : compute_optimal_iterations 1 = 1 := by
  rw [compute_optimal_iterations_pos_form 1 (by norm_num)]
  have h2 : ((2:ℝ) ^ (1:ℕ)) = 2 := by norm_num
  rw [h2, arcsin_one_div_sqrt_two_pi, div_self (by positivity : (Real.pi / 4) ≠ 0),
    round_one]
  rfl

theorem compute_optimal_iterations_two : compute_optimal_iterations 2 = 2 := by
  rw [compute_optimal_iterations_pos_form 2 (by norm_num)]
  have h4 : Real.sqrt ((2:ℝ) ^ (2:ℕ)) = 2 := by
    rw [show ((2:ℝ) ^ (2:ℕ)) = 2 ^ 2 by norm_num, Real.sqrt_sq (by norm_num)]
  rw [h4, show (1:ℝ)/2 = (1/2 : ℝ) by norm_num, arcsin_one_half_pi]
  have hratio : (Real.pi / 4) / (Real.pi / 6) = 3/2 := by
    have hpi := Real.pi_pos
    field_simp
    ring
  rw [hratio, roundEqOf (3/2 : ℝ) 2 (by norm_num) (by norm_num)]
  rfl

theorem compute_optimal_iterations_three : compute_optimal_iterations 3 = 2 := by
  rw [compute_optimal_iterations_pos_form 3 (by norm_num)]
  set s8 : ℝ := Real.sqrt ((2:ℝ) ^ (3:ℕ)) with hs8
  have h8 : ((2:ℝ) ^ (3:ℕ)) = 8 := by norm_num
  have hs8pos : 0 < s8 := by rw [hs8, h8]; positivity
  have hs8sq : s8 * s8 = 8 := by rw [hs8, h8]; exact Real.mul_self_sqrt (by norm_num)
  have hs8lo : 2 ≤ s8 := by nlinarith [hs8pos]
  have hs8hi : s8 < 2.8285 := by nlinarith [hs8pos]
  set x : ℝ := 1 / s8 with hx
  have hx0 : 0 < x := by positivity
  have hx1 : x ≤ 1 := by rw [hx, div_le_one hs8pos]; linarith
  set th : ℝ := Real.arcsin x with hth
  have hthpos : 0 < th := Real.arcsin_pos.2 hx0
  have hxth : x < th := by
    have hsin : Real.sin th = x := Real.sin_arcsin (by linarith) hx1
    calc x = Real.sin th := hsin.symm
      _ < th := Real.sin_lt hthpos
  have hlow : Real.pi / 10 < th := by
    have hpx : Real.pi / 10 < x := by
      rw [hx, lt_div_iff₀ hs8pos]
      nlinarith [Real.pi_lt_d2]
    linarith
  have hhigh : th ≤ Real.pi / 6 := by
    have hxhalf : x ≤ 1/2 := by
      rw [hx, div_le_div_iff₀ hs8pos (by norm_num)]
      linarith
    calc th = Real.arcsin x := hth
      _ ≤ Real.arcsin (1/2) := Real.monotone_arcsin hxhalf
      _ = Real.pi / 6 := arcsin_one_half_pi
  have hub : (Real.pi / 4) / th < 5/2 := by
    have := div_lt_div_of_pos_left (by positivity : (0:ℝ) < Real.pi / 4)
      (by positivity : (0:ℝ) < Real.pi / 10) hlow
    have heq : (Real.pi / 4) / (Real.pi / 10) = 5/2 := by
      have hpi := Real.pi_pos
      field_simp
      ring
    linarith [heq ▸ this]
  have hlb : (3:ℝ)/2 ≤ (Real.pi / 4) / th := by
    have := div_le_div_of_nonneg_left (by positivity : (0:ℝ) ≤ Real.pi / 4) hthpos hhigh
    have heq : (Real.pi / 4) / (Real.pi / 6) = 3/2 := by
      have hpi := Real.pi_pos
      field_simp
      ring
    linarith [heq ▸ this]
  rw [roundEqOf ((Real.pi / 4) / th) 2 (by push_cast; linarith) (by push_cast; linarith)]
  rfl

theorem sqrt128_lo : (11.3137 : ℝ) < Real.sqrt ((2:ℝ) ^ (7:ℕ)) := by
  rw [show ((2:ℝ) ^ (7:ℕ)) = 128 by norm_num,
    show (11.3137:ℝ) = Real.sqrt (11.3137 ^ 2) by rw [Real.sqrt_sq (by norm_num)]]
  exact Real.sqrt_lt_sqrt (by norm_num) (by norm_num)

theorem sqrt128_hi : Real.sqrt ((2:ℝ) ^ (7:ℕ)) < 11.3138 := by
  rw [show ((2:ℝ) ^ (7:ℕ)) = 128 by norm_num,
    show (11.3138:ℝ) = Real.sqrt (11.3138 ^ 2) by rw [Real.sqrt_sq (by norm_num)]]
  exact Real.sqrt_lt_sqrt (by norm_num) (by norm_num)

theorem compute_optimal_iterations_seven : compute_optimal_iterations 7 = 9 := by
  rw [compute_optimal_iterations_pos_form 7 (by norm_num)]
  set s : ℝ := Real.sqrt ((2:ℝ) ^ (7:ℕ)) with hs
  have hspos : 0 < s := by
    rw [hs, show ((2:ℝ) ^ (7:ℕ)) = 128 by norm_num]
    positivity
  have hslo : (11.3137:ℝ) < s := sqrt128_lo
  have hshi : s < 11.3138 := sqrt128_hi
  set x : ℝ := 1 / s with hx
  have hx0 : 0 < x := by positivity
  have hx1 : x ≤ 1 := by rw [hx, div_le_one hspos]; linarith
  set th : ℝ := Real.arcsin x with hth
  have hthpos : 0 < th := Real.arcsin_pos.2 hx0
  have hxth : x < th := by
    have hsin : Real.sin th = x := Real.sin_arcsin (by linarith) hx1
    calc x = Real.sin th := hsin.symm
      _ < th := Real.sin_lt hthpos
  have hlow : Real.pi / 38 < th := by
    have hpx : Real.pi / 38 < x := by
      rw [hx, lt_div_iff₀ hspos]
      nlinarith [Real.pi_lt_d2]
    linarith
  have hhigh : th ≤ (181/2000 : ℝ) := by
    have hsiny : (181/2000 : ℝ) - (181/2000 : ℝ) ^ 3 / 4 < Real.sin (181/2000 : ℝ) :=
      Real.sin_gt_sub_cube (by norm_num) (by norm_num)
    have hxs : x ≤ Real.sin (181/2000 : ℝ) := by
      have hxb : x < 0.0884 := by
        rw [hx, div_lt_iff₀ hspos]
        nlinarith
      nlinarith
    calc th = Real.arcsin x := hth
      _ ≤ Real.arcsin (Real.sin (181/2000 : ℝ)) := Real.monotone_arcsin hxs
      _ = (181/2000 : ℝ) := Real.arcsin_sin (by nlinarith [Real.pi_gt_d2])
            (by nlinarith [Real.pi_gt_d2])
  have hub : (Real.pi / 4) / th < 19/2 := by
    have := div_lt_div_of_pos_left (by positivity : (0:ℝ) < Real.pi / 4)
      (by positivity : (0:ℝ) < Real.pi / 38) hlow
    have heq : (Real.pi / 4) / (Real.pi / 38) = 19/2 := by
      have hpi := Real.pi_pos
      field_simp
      ring
    linarith [heq ▸ this]
  have hlb : (17:ℝ)/2 ≤ (Real.pi / 4) / th := by
    have hmono := div_le_div_of_nonneg_left (by positivity : (0:ℝ) ≤ Real.pi / 4)
      hthpos hhigh
    have hy : (17:ℝ)/2 ≤ (Real.pi / 4) / (181/2000 : ℝ) := by
      rw [le_div_iff₀ (by norm_num : (0:ℝ) < (181/2000 : ℝ))]
      nlinarith [Real.pi_gt_d2]
    linarith
  rw [roundEqOf ((Real.pi / 4) / th) 9 (by push_cast; linarith) (by push_cast; linarith)]
  rfl

theorem grover_search_iterations_seven : grover_search_iterations 7 = 8 := by
  unfold grover_search_iterations
  have hslo : (11.3137:ℝ) < Real.sqrt ((2:ℝ) ^ (7:ℕ)) := sqrt128_lo
  have hshi : Real.sqrt ((2:ℝ) ^ (7:ℕ)) < 11.3138 := sqrt128_hi
  apply Int.floor_eq_iff.mpr
  constructor
  · push_cast
    nlinarith [Real.pi_gt_d2]
  · push_cast
    nlinarith [Real.pi_lt_d2]

theorem compute_eq_spec (n : ℕ) : compute_optimal_iterations n = specComputeIterations n 1 := by
  rcases Nat.eq_zero_or_pos n with hn0 | hnpos
  · subst hn0
    simp [compute_optimal_iterations, specComputeIterations]
  · have hN : ¬(((2:ℝ) ^ n) ≤ 1) := by
      push_neg
      exact one_lt_pow₀ (by norm_num) (by omega)
    have harg : Real.sqrt (((1:ℕ) : ℝ) / ((2:ℝ) ^ n)) = 1 / Real.sqrt ((2:ℝ) ^ n) := by
      rw [Nat.cast_one, one_div, Real.sqrt_inv, one_div]
    rw [compute_optimal_iterations_pos_form n hnpos]
    simp only [specComputeIterations]
    rw [if_neg hN, harg]

end QCSearch

/-- C1: `compute_optimal_iterations` agrees with the specification formula
(over the reals, where `θ = asin(1/√N)` is always finite and positive for
`N ≥ 2`), and in particular returns 2 for `n = 3` and 1 for `n = 1`. -/
theorem C1_compute_optimal_iterations_spec :
    (∀ n : ℕ, QCSearch.compute_optimal_iterations n = QCSearch.specComputeIterations n 1) ∧
    QCSearch.compute_optimal_iterations 3 = 2 ∧
    QCSearch.compute_optimal_iterations 1 = 1 :=
  ⟨QCSearch.compute_eq_spec, QCSearch.compute_optimal_iterations_three,
    QCSearch.compute_optimal_iterations_one⟩

/-- C4: the floor-based iteration count of `quantum_search_sim.py` and
`benchmark.py` disagrees with the round-based `compute_optimal_iterations`
for a small power of two: at `n = 7` (`N = 128`) the floor variant gives 8
while the round variant gives 9. -/
theorem C4_iteration_variants_diverge :
    ∃ n : ℕ, 1 ≤ n ∧ QCSearch.grover_search_iterations n = 8 ∧
      QCSearch.compute_optimal_iterations n = 9 ∧
      QCSearch.grover_search_iterations n ≠ QCSearch.compute_optimal_iterations n := by
  refine ⟨7, by norm_num, QCSearch.grover_search_iterations_seven,
    QCSearch.compute_optimal_iterations_seven, ?_⟩
  rw [QCSearch.grover_search_iterations_seven, QCSearch.compute_optimal_iterations_seven]
  decide

/-! ## Quantum gate semantics: basic lemmas -/

namespace QCSearch

theorem rt2_mul_self : rt2 * rt2 = 2 := by
  unfold rt2
  rw [← Complex.ofReal_mul, Real.mul_self_sqrt (by norm_num)]
  norm_num

theorem rt2_ne_zero : rt2 ≠ 0 := by
  unfold rt2
  exact Complex.ofReal_ne_zero.2 (ne_of_gt (Real.sqrt_pos.2 (by norm_num)))

theorem applyGate_X {m : ℕ} (q : ℕ) (h : q < m) (s : QState m) :
    applyGate (Gate.X q) s = applyX ⟨q, h⟩ s := dif_pos h

theorem applyGate_Z {m : ℕ} (q : ℕ) (h : q < m) (s : QState m) :
    applyGate (Gate.Z q) s = applyZ ⟨q, h⟩ s := dif_pos h

theorem applyGate_H {m : ℕ} (q : ℕ) (h : q < m) (s : QState m) :
    applyGate (Gate.H q) s = applyH ⟨q, h⟩ s := dif_pos h

theorem applyGate_MCX {m : ℕ} (cs : List ℕ) (q : ℕ) (h : q < m) (s : QState m) :
    applyGate (Gate.MCX cs q) s = applyMCXList cs ⟨q, h⟩ s := dif_pos h

theorem applyGates_nil {m : ℕ} (s : QState m) : applyGates [] s = s := rfl

theorem applyGates_cons {m : ℕ} (g : Gate) (gs : List Gate) (s : QState m) :
    applyGates (g :: gs) s = applyGates gs (applyGate g s) := rfl

theorem applyGates_append {m : ℕ} (l1 l2 : List Gate) (s : QState m) :
    applyGates (l1 ++ l2) s = applyGates l2 (applyGates l1 s) := by
  simp [applyGates, List.foldl_append]

theorem applyGates_flatten_replicate {m : ℕ} (k : ℕ) (l : List Gate) :
    ∀ s : QState m, applyGates ((List.replicate k l).flatten) s =
      (fun s2 => applyGates l s2)^[k] s := by
  induction k with
  | zero => intro s; rfl
  | succ k ih =>
    intro s
    rw [List.replicate_succ, List.flatten_cons, applyGates_append, ih,
      Function.iterate_succ_apply]

theorem div_rt2_sum (A B : ℂ) : ((A + B) / rt2 + (A - B) / rt2) / rt2 = A := by
  rw [div_add_div_same, div_div, rt2_mul_self]
  have h2 : (2 : ℂ) ≠ 0 := by norm_num
  field_simp

theorem div_rt2_diff (A B : ℂ) : ((A - B) / rt2 - (A + B) / rt2) / rt2 = -B := by
  rw [div_sub_div_same, div_div, rt2_mul_self]
  have h2 : (2 : ℂ) ≠ 0 := by norm_num
  field_simp
  ring

theorem update_update_ne {m : ℕ} (b : Fin m → Bool) (q : Fin m) (x y : Bool) :
    Function.update (Function.update b q x) q y = Function.update b q y := by
  funext r
  by_cases hr : r = q
  · subst hr; simp
  · simp [Function.update_noteq hr]

theorem update_self_of {m : ℕ} (b : Fin m → Bool) (q : Fin m) (x : Bool)
    (h : b q = x) : Function.update b q x = b := by
  rw [← h]
  exact Function.update_eq_self q b

theorem applyH_eval {m : ℕ} (q : Fin m) (s : QState m) (b : Fin m → Bool) :
    applyH q s b =
      (s (Function.update b q false) +
        (if b q then (-1 : ℂ) else 1) * s (Function.update b q true)) / rt2 := rfl

theorem applyH_at_false {m : ℕ} (q : Fin m) (s : QState m) (b : Fin m → Bool) :
    applyH q s (Function.update b q false) =
      (s (Function.update b q false) + s (Function.update b q true)) / rt2 := by
  rw [applyH_eval, update_update_ne, update_update_ne, Function.update_same]
  norm_num

theorem applyH_at_true {m : ℕ} (q : Fin m) (s : QState m) (b : Fin m → Bool) :
    applyH q s (Function.update b q true) =
      (s (Function.update b q false) - s (Function.update b q true)) / rt2 := by
  rw [applyH_eval, update_update_ne, update_update_ne, Function.update_same]
  simp only [if_true]
  ring

theorem applyH_applyH {m : ℕ} (q : Fin m) (s : QState m) :
    applyH q (applyH q s) = s := by
  funext b
  rw [applyH_eval, applyH_at_false, applyH_at_true]
  cases hb : b q with
  | false =>
    rw [if_neg (by simp), one_mul, div_rt2_sum,
      update_self_of b q false hb]
  | true =>
    rw [if_pos (by simp)]
    have key : ∀ A B : ℂ, ((A + B) / rt2 + (-1) * ((A - B) / rt2)) / rt2 = B := by
      intro A B
      rw [neg_one_mul, ← sub_eq_add_neg, div_sub_div_same, div_div, rt2_mul_self]
      have h2 : (2 : ℂ) ≠ 0 := by norm_num
      field_simp
    rw [key, update_self_of b q true hb]

end QCSearch

/-! ## X-gate loops, digit strings and the checked builder -/

namespace QCSearch

theorem xGatesOf_eq_map : ∀ (l : List Bool) (i : ℕ),
    xGatesOf l i = (xPositions l i).map Gate.X
  | [], _ => rfl
  | c :: rest, i => by
    rw [xGatesOf, xPositions]
    cases c with
    | true => simpa using xGatesOf_eq_map rest (i + 1)
    | false => simpa using xGatesOf_eq_map rest (i + 1)

theorem xPositions_mem_iff : ∀ (l : List Bool) (i q : ℕ),
    q ∈ xPositions l i ↔ (i ≤ q ∧ q - i < l.length ∧ l.getD (q - i) true = false)
  | [], i, q => by simp [xPositions]
  | c :: rest, i, q => by
    rw [xPositions]
    cases c with
    | true =>
      simp only [if_true]
      rw [xPositions_mem_iff rest (i + 1) q]
      constructor
      · rintro ⟨h1, h2, h3⟩
        refine ⟨by omega, by simp; omega, ?_⟩
        have hq : q - i = (q - (i + 1)) + 1 := by omega
        rw [hq, List.getD_cons_succ]
        exact h3
      · rintro ⟨h1, h2, h3⟩
        have hqi : q ≠ i := by
          intro hq
          subst hq
          rw [Nat.sub_self, List.getD_cons_zero] at h3
          simp at h3
        refine ⟨by omega, by simp at h2; omega, ?_⟩
        have hq : q - i = (q - (i + 1)) + 1 := by omega
        rw [hq, List.getD_cons_succ] at h3
        exact h3
    | false =>
      simp only [Bool.false_eq_true, if_false, List.mem_cons]
      rw [xPositions_mem_iff rest (i + 1) q]
      constructor
      · rintro (rfl | ⟨h1, h2, h3⟩)
        · exact ⟨le_refl q, by simp, by rw [Nat.sub_self, List.getD_cons_zero]⟩
        · refine ⟨by omega, by simp; omega, ?_⟩
          have hq : q - i = (q - (i + 1)) + 1 := by omega
          rw [hq, List.getD_cons_succ]
          exact h3
      · rintro ⟨h1, h2, h3⟩
        by_cases hqi : q = i
        · exact Or.inl hqi
        · refine Or.inr ⟨by omega, by simp at h2; omega, ?_⟩
          have hq : q - i = (q - (i + 1)) + 1 := by omega
          rw [hq, List.getD_cons_succ] at h3
          exact h3

theorem xPositions_nodup : ∀ (l : List Bool) (i : ℕ), (xPositions l i).Nodup
  | [], _ => List.nodup_nil
  | c :: rest, i => by
    rw [xPositions]
    cases c with
    | true => simpa using xPositions_nodup rest (i + 1)
    | false =>
      simp only [Bool.false_eq_true, if_false]
      refine List.nodup_cons.2 ⟨?_, xPositions_nodup rest (i + 1)⟩
      intro hmem
      have := (xPositions_mem_iff rest (i + 1) i).1 hmem
      omega

theorem xmap_fold {m : ℕ} : ∀ (L : List ℕ), L.Nodup → (∀ q ∈ L, q < m) →
    ∀ (s : QState m) (b : Fin m → Bool),
    applyGates (L.map Gate.X) s b =
      s (fun q => if (q : ℕ) ∈ L then !(b q) else b q)
  | [], _, _, s, b => by
    show s b = _
    congr 1
  | q0 :: L2, hnd, hlt, s, b => by
    have hq0m : q0 < m := hlt q0 (List.mem_cons_self _ _)
    have hq0L2 : q0 ∉ L2 := (List.nodup_cons.1 hnd).1
    rw [List.map_cons, applyGates_cons, applyGate_X q0 hq0m,
      xmap_fold L2 (List.nodup_cons.1 hnd).2
        (fun q hq => hlt q (List.mem_cons_of_mem _ hq)) (applyX ⟨q0, hq0m⟩ s) b]
    show s _ = s _
    congr 1
    funext r
    by_cases hr : r = (⟨q0, hq0m⟩ : Fin m)
    · subst hr
      simp [Function.update_same, hq0L2, List.mem_cons]
    · have hrv : (r : ℕ) ≠ q0 := fun hv => hr (Fin.ext hv)
      simp [Function.update_noteq hr, List.mem_cons, hrv]

theorem natDigits_getD : ∀ (fuel n j : ℕ), n ≤ fuel →
    (natDigits fuel n).getD j false = n.testBit j
  | 0, n, j, hn => by
    obtain rfl : n = 0 := Nat.le_zero.1 hn
    simp [natDigits, Nat.zero_testBit]
  | fuel + 1, n, j, hn => by
    rw [natDigits]
    by_cases h0 : n = 0
    · subst h0
      simp [Nat.zero_testBit]
    · rw [if_neg h0]
      cases j with
      | zero =>
        rw [List.getD_cons_zero, Nat.testBit_zero]
      | succ j2 =>
        rw [List.getD_cons_succ, natDigits_getD fuel (n / 2) j2 (by omega),
          Nat.testBit_succ]

theorem natDigits_high_false (fuel n j : ℕ) (hn : n ≤ fuel)
    (hj : (natDigits fuel n).length ≤ j) : n.testBit j = false := by
  rw [← natDigits_getD fuel n j hn, List.getD_eq_getElem?_getD,
    List.getElem?_eq_none hj]
  rfl

theorem natDigits_length_le : ∀ (fuel n mm : ℕ), n ≤ fuel → n < 2 ^ mm →
    (natDigits fuel n).length ≤ mm
  | 0, n, mm, hn, _ => by
    obtain rfl : n = 0 := Nat.le_zero.1 hn
    simp [natDigits]
  | fuel + 1, n, mm, hn, hlt => by
    rw [natDigits]
    by_cases h0 : n = 0
    · simp [h0]
    · rw [if_neg h0]
      have hmm : 1 ≤ mm := by
        by_contra hc
        have : mm = 0 := by omega
        subst this
        simp at hlt
        omega
      have hdiv : n / 2 < 2 ^ (mm - 1) := by
        have h2 : 2 ^ mm = 2 ^ (mm - 1) * 2 := by
          rw [← pow_succ]
          congr 1
          omega
        rw [Nat.div_lt_iff_lt_mul (by norm_num)]
        omega
      have := natDigits_length_le fuel (n / 2) (mm - 1) (by omega) hdiv
      simp only [List.length_cons]
      omega

theorem getD_indep {α : Type} (l : List α) (k : ℕ) (d1 d2 : α)
    (h : k < l.length) : l.getD k d1 = l.getD k d2 := by
  rw [List.getD_eq_getElem?_getD, List.getD_eq_getElem?_getD,
    List.getElem?_eq_getElem h]
  rfl

theorem tbin_length (m t : ℕ) (ht : t < 2 ^ m) : (tbin m t).length = m := by
  unfold tbin
  rw [List.length_reverse, List.length_append, List.length_replicate]
  have h1 := natDigits_length_le t t m le_rfl ht
  omega

theorem padded_getD (m t k : ℕ) (ht : t < 2 ^ m) (hk : k < m) :
    (natDigits t t ++ List.replicate (m - (natDigits t t).length) false).getD k true =
      t.testBit k := by
  by_cases hkl : k < (natDigits t t).length
  · rw [List.getD_append _ _ _ _ hkl, getD_indep _ _ _ false hkl,
      natDigits_getD t t k le_rfl]
  · rw [List.getD_append_right _ _ _ _ (by omega)]
    have hlen := natDigits_length_le t t m le_rfl ht
    rw [List.getD_eq_getElem?_getD, List.getElem?_replicate,
      if_pos (by omega), Option.getD_some]
    exact (natDigits_high_false t t k le_rfl (by omega)).symm

theorem tbin_getD (m t j : ℕ) (ht : t < 2 ^ m) (hj : j < m) :
    (tbin m t).getD j true = t.testBit (m - 1 - j) := by
  have hplen : (natDigits t t ++
      List.replicate (m - (natDigits t t).length) false).length = m := by
    rw [List.length_append, List.length_replicate]
    have := natDigits_length_le t t m le_rfl ht
    omega
  unfold tbin
  have hj2 : j < (natDigits t t ++
      List.replicate (m - (natDigits t t).length) false).reverse.length := by
    rw [List.length_reverse, hplen]
    exact hj
  rw [List.getD_eq_getElem?_getD, List.getElem?_eq_getElem hj2,
    Option.getD_some, List.getElem_reverse]
  have hk : (natDigits t t ++
      List.replicate (m - (natDigits t t).length) false).length - 1 - j < m := by
    omega
  rw [← List.getD_eq_getElem _ true]
  rw [padded_getD m t _ ht (by omega), hplen]

end QCSearch

/-! ## Checked circuit construction and the multi-controlled-Z block -/

namespace QCSearch

theorem xGatesChecked_ok {m : ℕ} : ∀ (l : List Bool) (i : ℕ), i + l.length ≤ m →
    xGatesChecked m l i = Except.ok (xGatesOf l i)
  | [], _, _ => rfl
  | c :: rest, i, h => by
    have hlen : i + 1 + rest.length ≤ m := by simp at h; omega
    rw [xGatesChecked, xGatesOf]
    cases c with
    | true => simpa using xGatesChecked_ok rest (i + 1) hlen
    | false =>
      have him : i < m := by simp at h; omega
      simp only [Bool.false_eq_true, if_false, if_pos him]
      rw [xGatesChecked_ok rest (i + 1) hlen]

theorem xGatesChecked_no_invalid (m : ℕ) : ∀ (l : List Bool) (i : ℕ),
    xGatesChecked m l i ≠ Except.error QErr.InvalidTarget
  | [], i => by simp [xGatesChecked]
  | c :: rest, i => by
    rw [xGatesChecked]
    cases c with
    | true => simpa using xGatesChecked_no_invalid m rest (i + 1)
    | false =>
      simp only [Bool.false_eq_true, if_false]
      by_cases him : i < m
      · rw [if_pos him]
        cases hrec : xGatesChecked m rest (i + 1) with
        | ok gs => simp
        | error e =>
          have hne := xGatesChecked_no_invalid m rest (i + 1)
          rw [hrec] at hne
          simpa using hne
      · rw [if_neg him]
        simp

theorem grover_oracle_checked_ok (m t : ℕ) (ht : t < 2 ^ m) :
    grover_oracle_checked m t = Except.ok (grover_oracle_gates m t) := by
  unfold grover_oracle_checked grover_oracle_gates
  rw [xGatesChecked_ok (tbin m t) 0 (by rw [tbin_length m t ht]; omega)]

theorem grover_oracle_checked_no_invalid (m t : ℕ) :
    grover_oracle_checked m t ≠ Except.error QErr.InvalidTarget := by
  unfold grover_oracle_checked
  cases hrec : xGatesChecked m (tbin m t) 0 with
  | ok xs => simp
  | error e =>
    have hne := xGatesChecked_no_invalid m (tbin m t) 0
    rw [hrec] at hne
    simpa using hne

theorem build_grover_circuit_ok (m t k : ℕ) (ht : t < 2 ^ m) :
    build_grover_circuit m t k =
      Except.ok (hAllGates m ++
        (List.replicate k (grover_oracle_gates m t ++ grover_diffusion_gates m)).flatten) := by
  unfold build_grover_circuit
  rw [grover_oracle_checked_ok m t ht]

theorem build_grover_circuit_no_invalid (m t k : ℕ) :
    build_grover_circuit m t k ≠ Except.error QErr.InvalidTarget := by
  unfold build_grover_circuit
  cases hrec : grover_oracle_checked m t with
  | ok og => simp
  | error e =>
    have hne := grover_oracle_checked_no_invalid m t
    rw [hrec] at hne
    simpa using hne

theorem run_grover_once_no_invalid (m t : ℕ) :
    run_grover_once m t ≠ Except.error QErr.InvalidTarget := by
  simp only [run_grover_once]
  cases hrec : build_grover_circuit m t (compute_optimal_iterations m).toNat with
  | ok gs => simp
  | error e =>
    have hne := build_grover_circuit_no_invalid m t (compute_optimal_iterations m).toNat
    rw [hrec] at hne
    simpa using hne

theorem ctrl_all_update {m : ℕ} (cs : List ℕ) (q : Fin m) (b : Fin m → Bool)
    (x : Bool) (hcs : ∀ c ∈ cs, c ≠ (q : ℕ)) :
    (cs.all (fun c => if h : c < m then (Function.update b q x) ⟨c, h⟩ else true)) =
      (cs.all (fun c => if h : c < m then b ⟨c, h⟩ else true)) := by
  induction cs with
  | nil => rfl
  | cons c cs2 ih =>
    rw [List.all_cons, List.all_cons, ih (fun d hd => hcs d (List.mem_cons_of_mem _ hd))]
    congr 1
    by_cases hc : c < m
    · have hne : (⟨c, hc⟩ : Fin m) ≠ q := fun hEq =>
        hcs c (List.mem_cons_self _ _) (congrArg Fin.val hEq)
      rw [dif_pos hc, dif_pos hc, Function.update_noteq hne]
    · rw [dif_neg hc, dif_neg hc]

theorem key_hmcxh_id (A B : ℂ) : ((A - B) / rt2 + (A + B) / rt2) / rt2 = A := by
  rw [div_add_div_same, div_div, rt2_mul_self]
  have h2 : (2 : ℂ) ≠ 0 := by norm_num
  field_simp

theorem key_hmcxh_neg (A B : ℂ) :
    ((A - B) / rt2 + (-1) * ((A + B) / rt2)) / rt2 = -B := by
  rw [neg_one_mul, ← sub_eq_add_neg, div_sub_div_same, div_div, rt2_mul_self]
  have h2 : (2 : ℂ) ≠ 0 := by norm_num
  field_simp
  ring

theorem h_mcx_h_apply {m : ℕ} (qf : Fin m) (cs : List ℕ)
    (hcs : ∀ c ∈ cs, c ≠ (qf : ℕ)) (s : QState m) (b : Fin m → Bool) :
    applyH qf (applyMCXList cs qf (applyH qf s)) b =
      if (cs.all (fun c => if h : c < m then b ⟨c, h⟩ else true)) ∧ b qf = true
      then -s b else s b := by
  have hv : ∀ x : Bool, applyMCXList cs qf (applyH qf s) (Function.update b qf x) =
      if cs.all (fun c => if h : c < m then b ⟨c, h⟩ else true)
      then applyH qf s (Function.update b qf (!x))
      else applyH qf s (Function.update b qf x) := by
    intro x
    unfold applyMCXList
    rw [ctrl_all_update cs qf b x hcs, Function.update_same, update_update_ne]
  rw [applyH_eval, hv false, hv true]
  by_cases hc : cs.all (fun c => if h : c < m then b ⟨c, h⟩ else true) = true
  · rw [if_pos hc, if_pos hc]
    show (applyH qf s (Function.update b qf true) +
        (if b qf then (-1 : ℂ) else 1) * applyH qf s (Function.update b qf false)) / rt2 = _
    rw [applyH_at_true, applyH_at_false]
    cases hb : b qf with
    | false =>
      simp only [Bool.false_eq_true, and_false, if_false]
      rw [one_mul,
        key_hmcxh_id (s (Function.update b qf false)) (s (Function.update b qf true)),
        update_self_of b qf false hb]
    | true =>
      rw [if_pos (show ((cs.all fun c => if h : c < m then b ⟨c, h⟩ else true) = true ∧
          true = true) from ⟨hc, rfl⟩), if_pos rfl,
        key_hmcxh_neg (s (Function.update b qf false)) (s (Function.update b qf true)),
        update_self_of b qf true hb]
  · rw [if_neg hc, if_neg hc, ← applyH_eval, applyH_applyH]
    have hcond : ¬((cs.all fun c => if h : c < m then b ⟨c, h⟩ else true) = true ∧
        b qf = true) := fun hcon => hc hcon.1
    rw [if_neg hcond]

theorem mcz_apply {m : ℕ} (hm : 1 ≤ m) (s : QState m) (b : Fin m → Bool) :
    applyGates (mczGates m) s b = if (∀ q, b q = true) then -s b else s b := by
  rcases Nat.lt_or_ge m 2 with hm2 | hm2
  · have hm1 : m = 1 := by omega
    subst hm1
    show applyGate (Gate.Z 0) s b = _
    rw [applyGate_Z 0 (by norm_num)]
    unfold applyZ
    have hiff : (∀ q : Fin 1, b q = true) ↔ b 0 = true := by
      constructor
      · intro h; exact h 0
      · intro h q
        have : q = 0 := Subsingleton.elim q 0
        rw [this]; exact h
    by_cases hb : b 0 = true
    · have hb2 : b ⟨0, by norm_num⟩ = true := hb
      rw [if_pos hb2, if_pos (hiff.2 hb)]
    · have hb2 : ¬(b ⟨0, by norm_num⟩ = true) := hb
      rw [if_neg hb2, if_neg (fun hall => hb (hiff.1 hall))]
  · have hm1 : ¬(m = 1) := by omega
    have hlast : m - 1 < m := by omega
    show applyGates (mczGates m) s b = _
    unfold mczGates
    rw [if_neg hm1, applyGates_cons, applyGates_cons, applyGates_cons, applyGates_nil,
      applyGate_H _ hlast, applyGate_MCX _ _ hlast, applyGate_H _ hlast]
    have hcs : ∀ c ∈ List.range (m - 1), c ≠ ((⟨m - 1, hlast⟩ : Fin m) : ℕ) := by
      intro c hc
      rw [List.mem_range] at hc
      simp only [Fin.val_mk]
      omega
    rw [h_mcx_h_apply ⟨m - 1, hlast⟩ (List.range (m - 1)) hcs s b]
    have hiff : ((List.range (m - 1)).all
          (fun c => if h : c < m then b ⟨c, h⟩ else true) = true ∧
        b ⟨m - 1, hlast⟩ = true) ↔ (∀ q, b q = true) := by
      constructor
      · rintro ⟨h1, h2⟩ r
        by_cases hr : (r : ℕ) = m - 1
        · have : r = ⟨m - 1, hlast⟩ := Fin.ext hr
          rw [this]; exact h2
        · have hrm : (r : ℕ) < m - 1 := by
            have := r.isLt
            omega
          have hmem := List.all_eq_true.1 h1 (r : ℕ) (List.mem_range.2 hrm)
          rw [dif_pos r.isLt] at hmem
          simpa using hmem
      · intro hall
        refine ⟨List.all_eq_true.2 ?_, hall _⟩
        intro c hcm
        by_cases hcm2 : c < m
        · rw [dif_pos hcm2]; exact hall ⟨c, hcm2⟩
        · rw [dif_neg hcm2]
    by_cases hco : (∀ q, b q = true)
    · rw [if_pos (hiff.2 hco), if_pos hco]
    · rw [if_neg (fun hcon => hco (hiff.1 hcon)), if_neg hco]

end QCSearch

/-! ## Oracle effect: the phase flip lands on the bit-reversed target -/

namespace QCSearch

theorem grover_oracle_apply {m t : ℕ} (hm : 1 ≤ m) (ht : t < 2 ^ m)
    (s : QState m) (b : Fin m → Bool) :
    applyGates (grover_oracle_gates m t) s b =
      if b = (fun q : Fin m => t.testBit (m - 1 - (q : ℕ))) then -s b else s b := by
  have hPnd : (xPositions (tbin m t) 0).Nodup := xPositions_nodup _ _
  have hPlt : ∀ q ∈ xPositions (tbin m t) 0, q < m := by
    intro q hq
    have h1 := (xPositions_mem_iff (tbin m t) 0 q).1 hq
    rw [tbin_length m t ht] at h1
    omega
  have hPmem : ∀ q : Fin m,
      ((q : ℕ) ∈ xPositions (tbin m t) 0 ↔ t.testBit (m - 1 - (q : ℕ)) = false) := by
    intro q
    rw [xPositions_mem_iff, tbin_length m t ht]
    constructor
    · rintro ⟨_, _, h3⟩
      rw [Nat.sub_zero] at h3
      rw [← tbin_getD m t (q : ℕ) ht q.isLt]
      exact h3
    · intro hbit
      refine ⟨Nat.zero_le _, by simp [q.isLt], ?_⟩
      rw [Nat.sub_zero, tbin_getD m t (q : ℕ) ht q.isLt]
      exact hbit
  have hmaskmask : ∀ bb : Fin m → Bool,
      (fun q : Fin m => if (q : ℕ) ∈ xPositions (tbin m t) 0
          then !((fun r : Fin m => if (r : ℕ) ∈ xPositions (tbin m t) 0
            then !(bb r) else bb r) q)
          else (fun r : Fin m => if (r : ℕ) ∈ xPositions (tbin m t) 0
            then !(bb r) else bb r) q) = bb := by
    intro bb
    funext r
    by_cases hr : (r : ℕ) ∈ xPositions (tbin m t) 0 <;> simp [hr]
  calc applyGates (grover_oracle_gates m t) s b
      = applyGates ((xPositions (tbin m t) 0).map Gate.X)
          (applyGates (mczGates m)
            (applyGates ((xPositions (tbin m t) 0).map Gate.X) s)) b := by
        unfold grover_oracle_gates
        rw [xGatesOf_eq_map, applyGates_append, applyGates_append]
    _ = (applyGates (mczGates m)
          (applyGates ((xPositions (tbin m t) 0).map Gate.X) s))
          (fun q : Fin m => if (q : ℕ) ∈ xPositions (tbin m t) 0
            then !(b q) else b q) := xmap_fold _ hPnd hPlt _ b
    _ = if (∀ q : Fin m, (if (q : ℕ) ∈ xPositions (tbin m t) 0
            then !(b q) else b q) = true)
          then -s b else s b := by
        rw [mcz_apply hm, xmap_fold _ hPnd hPlt s, hmaskmask b]
    _ = if b = (fun q : Fin m => t.testBit (m - 1 - (q : ℕ))) then -s b else s b := by
        have hiff : (∀ q : Fin m, (if (q : ℕ) ∈ xPositions (tbin m t) 0
              then !(b q) else b q) = true) ↔
            b = (fun q : Fin m => t.testBit (m - 1 - (q : ℕ))) := by
          constructor
          · intro h
            funext q
            have hq := h q
            by_cases hmem : (q : ℕ) ∈ xPositions (tbin m t) 0
            · rw [if_pos hmem] at hq
              rw [(hPmem q).1 hmem]
              simpa using hq
            · rw [if_neg hmem] at hq
              have hbit : ¬(t.testBit (m - 1 - (q : ℕ)) = false) :=
                fun hf => hmem ((hPmem q).2 hf)
              rw [hq]
              simpa using hbit
          · intro h q
            by_cases hmem : (q : ℕ) ∈ xPositions (tbin m t) 0
            · rw [if_pos hmem, h]
              have hbit := (hPmem q).1 hmem
              simp [hbit]
            · rw [if_neg hmem, h]
              have hbit : ¬(t.testBit (m - 1 - (q : ℕ)) = false) :=
                fun hf => hmem ((hPmem q).2 hf)
              simpa using hbit
        by_cases hco : b = (fun q : Fin m => t.testBit (m - 1 - (q : ℕ)))
        · rw [if_pos (hiff.2 hco), if_pos hco]
        · rw [if_neg (fun hc => hco (hiff.1 hc)), if_neg hco]

end QCSearch

/-- C2: evaluation of `grover_oracle` at the failing input `n_qubits = 2`,
`target = 1`, on the all-ones amplitude vector.  The amplitude at index
`target = 1` (basis `natBits 2 1`) is unchanged, while the amplitude negated
is the one at index 2, the bit reversal of the target — the oracle marks
`bitRev n target`, not `target`, contradicting its own docstring and the
success-rate computation of `run_grover_once`. -/
theorem C2_oracle_negates_bit_reversed_index :
    QCSearch.applyGates (QCSearch.grover_oracle_gates 2 1) (fun _ => 1)
      (QCSearch.natBits 2 1) = 1 ∧
    QCSearch.applyGates (QCSearch.grover_oracle_gates 2 1) (fun _ => 1)
      (QCSearch.natBits 2 2) = -1 ∧
    QCSearch.bitRev 2 1 = 2 := by
  refine ⟨?_, ?_, by decide⟩
  · rw [QCSearch.grover_oracle_apply (by norm_num) (by norm_num)]
    rw [if_neg (by decide)]
  · rw [QCSearch.grover_oracle_apply (by norm_num) (by norm_num)]
    rw [if_pos (by decide)]

/-! ## Linearity of gate application and Hadamard evaluation lemmas -/

namespace QCSearch

theorem applyGate_add {m : ℕ} (g : Gate) (p q : QState m) :
    applyGate g (fun b => p b + q b) = fun b => applyGate g p b + applyGate g q b := by
  funext b
  cases g with
  | X qi =>
    by_cases h : qi < m
    · simp only [applyGate, dif_pos h, applyX]
    · simp only [applyGate, dif_neg h]
  | Z qi =>
    by_cases h : qi < m
    · simp only [applyGate, dif_pos h, applyZ]
      by_cases hb : b ⟨qi, h⟩
      · simp [hb]
        ring
      · simp [hb]
    · simp only [applyGate, dif_neg h]
  | H qi =>
    by_cases h : qi < m
    · simp only [applyGate, dif_pos h, applyH]
      ring
    · simp only [applyGate, dif_neg h]
  | MCX cs qi =>
    by_cases h : qi < m
    · simp only [applyGate, dif_pos h, applyMCXList]
      by_cases hc : cs.all (fun c => if hcm : c < m then b ⟨c, hcm⟩ else true) <;>
        simp [hc]
    · simp only [applyGate, dif_neg h]

theorem applyGate_mul {m : ℕ} (g : Gate) (k : ℂ) (p : QState m) :
    applyGate g (fun b => k * p b) = fun b => k * applyGate g p b := by
  funext b
  cases g with
  | X qi =>
    by_cases h : qi < m
    · simp only [applyGate, dif_pos h, applyX]
    · simp only [applyGate, dif_neg h]
  | Z qi =>
    by_cases h : qi < m
    · simp only [applyGate, dif_pos h, applyZ]
      by_cases hb : b ⟨qi, h⟩ <;> simp [hb]
    · simp only [applyGate, dif_neg h]
  | H qi =>
    by_cases h : qi < m
    · simp only [applyGate, dif_pos h, applyH]
      ring
    · simp only [applyGate, dif_neg h]
  | MCX cs qi =>
    by_cases h : qi < m
    · simp only [applyGate, dif_pos h, applyMCXList]
      by_cases hc : cs.all (fun c => if hcm : c < m then b ⟨c, hcm⟩ else true) <;>
        simp [hc]
    · simp only [applyGate, dif_neg h]

theorem applyGates_add {m : ℕ} : ∀ (gs : List Gate) (p q : QState m),
    applyGates gs (fun b => p b + q b) = fun b => applyGates gs p b + applyGates gs q b
  | [], _, _ => rfl
  | g :: gs, p, q => by
    rw [applyGates_cons, applyGates_cons, applyGates_cons, applyGate_add,
      applyGates_add gs (applyGate g p) (applyGate g q)]

theorem applyGates_mul {m : ℕ} : ∀ (gs : List Gate) (k : ℂ) (p : QState m),
    applyGates gs (fun b => k * p b) = fun b => k * applyGates gs p b
  | [], _, _ => rfl
  | g :: gs, k, p => by
    rw [applyGates_cons, applyGates_cons, applyGate_mul,
      applyGates_mul gs k (applyGate g p)]

theorem applyGates_zero {m : ℕ} (gs : List Gate) :
    applyGates gs ((fun _ => (0 : ℂ)) : QState m) = fun _ => 0 := by
  have h := @applyGates_mul m gs 0 (fun _ => (0 : ℂ))
  simpa using h

theorem applyGates_sum {m : ℕ} {ι : Type} [DecidableEq ι] (gs : List Gate)
    (F : Finset ι) (f : ι → QState m) :
    applyGates gs (fun b => ∑ i ∈ F, f i b) =
      fun b => ∑ i ∈ F, applyGates gs (f i) b := by
  induction F using Finset.induction_on with
  | empty =>
    rw [show (fun b : Fin m → Bool => ∑ i ∈ (∅ : Finset ι), f i b) =
      (fun _ => (0 : ℂ)) from by funext b; simp]
    rw [applyGates_zero]
    funext b
    simp
  | insert hna ih =>
    rename_i a F2
    rw [show (fun b : Fin m → Bool => ∑ i ∈ insert a F2, f i b) =
      (fun b => f a b + ∑ i ∈ F2, f i b) from by
        funext b; rw [Finset.sum_insert hna]]
    rw [applyGates_add, ih]
    funext b
    rw [Finset.sum_insert hna]

theorem update_eq_symm {m : ℕ} (x c : Fin m → Bool) (q : Fin m) (v : Bool)
    (hx : x q = !v) (hc : c q = v) :
    (Function.update x q v = c) = (x = Function.update c q (!v)) := by
  apply propext
  constructor
  · intro h
    funext r
    by_cases hr : r = q
    · subst hr
      rw [Function.update_same, hx]
    · rw [Function.update_noteq hr, ← h, Function.update_noteq hr]
  · intro h
    funext r
    by_cases hr : r = q
    · subst hr
      rw [Function.update_same, hc]
    · rw [Function.update_noteq hr, h, Function.update_noteq hr]

theorem applyH_indicator {m : ℕ} (q : Fin m) (c : Fin m → Bool) :
    applyH q (indicator c) = fun x =>
      (indicator (Function.update c q false) x +
        (if c q then (-1 : ℂ) else 1) * indicator (Function.update c q true) x) / rt2 := by
  funext x
  rw [applyH_eval]
  unfold indicator
  congr 1
  cases hx : x q with
  | false =>
    rw [update_self_of x q false hx]
    cases hc : c q with
    | false =>
      rw [update_self_of c q false hc]
      have h1 : ¬(Function.update x q true = c) := fun hEq => by
        have := congrFun hEq q
        rw [Function.update_same, hc] at this
        exact Bool.noConfusion this
      have h2 : ¬(x = Function.update c q true) := fun hEq => by
        have := congrFun hEq q
        rw [Function.update_same, hx] at this
        exact Bool.noConfusion this
      rw [if_neg h1, if_neg h2]
    | true =>
      have h1 : ¬(x = c) := fun hEq => by
        rw [hEq, hc] at hx
        exact Bool.noConfusion hx
      have h2 : ¬(x = Function.update c q true) := fun hEq => by
        have := congrFun hEq q
        rw [Function.update_same, hx] at this
        exact Bool.noConfusion this
      rw [if_neg h1, if_neg h2]
      simp only [update_eq_symm x c q true hx hc, Bool.not_true]
      simp
  | true =>
    rw [update_self_of x q true hx]
    cases hc : c q with
    | false =>
      have h1 : ¬(x = c) := fun hEq => by
        rw [hEq, hc] at hx
        exact Bool.noConfusion hx
      have h3 : ¬(x = Function.update c q false) := fun hEq => by
        have := congrFun hEq q
        rw [Function.update_same, hx] at this
        exact Bool.noConfusion this
      rw [if_neg h1, if_neg h3]
      simp only [update_eq_symm x c q false hx hc, Bool.not_false]
      simp
    | true =>
      rw [update_self_of c q true hc]
      have h2 : ¬(Function.update x q false = c) := fun hEq => by
        have := congrFun hEq q
        rw [Function.update_same, hc] at this
        exact Bool.noConfusion this
      have h3 : ¬(x = Function.update c q false) := fun hEq => by
        have := congrFun hEq q
        rw [Function.update_same, hx] at this
        exact Bool.noConfusion this
      rw [if_neg h2, if_neg h3]

end QCSearch

namespace QCSearch

theorem hallSign_nil {m : ℕ} (c b : Fin m → Bool) : hallSign c b [] = 1 := rfl

theorem hallSign_cons {m : ℕ} (c b : Fin m → Bool) (a : ℕ) (L : List ℕ) :
    hallSign c b (a :: L) =
      (if h : a < m then (if c ⟨a, h⟩ && b ⟨a, h⟩ then -1 else 1) else 1) *
        hallSign c b L := rfl

theorem hallSign_update_left {m : ℕ} (b : Fin m → Bool) (p : Fin m) (x : Bool) :
    ∀ (L : List ℕ), (p : ℕ) ∉ L → ∀ (c : Fin m → Bool),
      hallSign (Function.update c p x) b L = hallSign c b L
  | [], _, _ => rfl
  | a :: L, hp, c => by
    rw [hallSign_cons, hallSign_cons,
      hallSign_update_left b p x L (fun hm2 => hp (List.mem_cons_of_mem a hm2)) c]
    congr 1
    by_cases h : a < m
    · have hpa : (p : ℕ) ≠ a := fun hEq => hp (hEq ▸ List.mem_cons_self a L)
      have hne : (⟨a, h⟩ : Fin m) ≠ p := fun hEq => hpa (congrArg Fin.val hEq.symm)
      rw [dif_pos h, dif_pos h, Function.update_noteq hne]
    · rw [dif_neg h, dif_neg h]

theorem hallSign_first_zero {m : ℕ} (b : Fin m → Bool) :
    ∀ L : List ℕ, hallSign (fun _ => false) b L = 1
  | [] => rfl
  | a :: L => by
    rw [hallSign_cons, hallSign_first_zero b L, mul_one]
    by_cases h : a < m
    · rw [dif_pos h]
      simp
    · rw [dif_neg h]

theorem hallSign_second_zero {m : ℕ} (c : Fin m → Bool) :
    ∀ L : List ℕ, hallSign c (fun _ => false) L = 1
  | [] => rfl
  | a :: L => by
    rw [hallSign_cons, hallSign_second_zero c L, mul_one]
    by_cases h : a < m
    · rw [dif_pos h]
      simp
    · rw [dif_neg h]

theorem hwall_indicator {m : ℕ} : ∀ (L : List ℕ), L.Nodup → (∀ a ∈ L, a < m) →
    ∀ (c b : Fin m → Bool),
    applyGates (L.map Gate.H) (indicator c) b =
      rt2⁻¹ ^ L.length *
        (if (∀ q : Fin m, (q : ℕ) ∉ L → b q = c q) then hallSign c b L else 0)
  | [], _, _, c, b => by
    show indicator c b = _
    unfold indicator
    rw [List.length_nil, pow_zero, one_mul, hallSign_nil,
      if_congr (show (b = c) ↔ (∀ q : Fin m, (q : ℕ) ∉ ([] : List ℕ) → b q = c q) from
        ⟨fun h q _ => by rw [h], fun h => funext fun q => h q (List.not_mem_nil _)⟩) rfl rfl]
  | a :: L, hnd, hlt, c, b => by
    have ha : a < m := hlt a (List.mem_cons_self a L)
    have haL : a ∉ L := (List.nodup_cons.1 hnd).1
    have hndL : L.Nodup := (List.nodup_cons.1 hnd).2
    have hltL : ∀ x ∈ L, x < m := fun x hx => hlt x (List.mem_cons_of_mem a hx)
    rw [List.map_cons, applyGates_cons, applyGate_H a ha, applyH_indicator]
    have hsplit : (fun x => (indicator (Function.update c ⟨a, ha⟩ false) x +
        (if c ⟨a, ha⟩ then (-1 : ℂ) else 1) *
          indicator (Function.update c ⟨a, ha⟩ true) x) / rt2) =
        (fun x => rt2⁻¹ * indicator (Function.update c ⟨a, ha⟩ false) x +
          (rt2⁻¹ * (if c ⟨a, ha⟩ then (-1 : ℂ) else 1)) *
            indicator (Function.update c ⟨a, ha⟩ true) x) := by
      funext x
      ring
    rw [hsplit]
    simp only [applyGates_add, applyGates_mul]
    rw [hwall_indicator L hndL hltL (Function.update c ⟨a, ha⟩ false) b,
      hwall_indicator L hndL hltL (Function.update c ⟨a, ha⟩ true) b,
      hallSign_update_left b ⟨a, ha⟩ false L haL c,
      hallSign_update_left b ⟨a, ha⟩ true L haL c]
    simp only [List.length_cons]
    rw [pow_succ]
    cases hbp : b ⟨a, ha⟩ with
    | false =>
      have hPt : ¬(∀ q : Fin m, (q : ℕ) ∉ L →
          b q = Function.update c ⟨a, ha⟩ true q) := by
        intro hAll
        have h2 := hAll ⟨a, ha⟩ haL
        rw [Function.update_same, hbp] at h2
        exact Bool.noConfusion h2
      have hPf : (∀ q : Fin m, (q : ℕ) ∉ L →
          b q = Function.update c ⟨a, ha⟩ false q) ↔
          (∀ q : Fin m, (q : ℕ) ∉ a :: L → b q = c q) := by
        constructor
        · intro hAll q hq
          have hqL : (q : ℕ) ∉ L := fun hx => hq (List.mem_cons_of_mem a hx)
          have hqa : q ≠ ⟨a, ha⟩ := fun hEq =>
            hq (by rw [hEq]; exact List.mem_cons_self a L)
          have h2 := hAll q hqL
          rwa [Function.update_noteq hqa] at h2
        · intro hAll q hqL
          by_cases hqa : q = ⟨a, ha⟩
          · subst hqa
            rw [Function.update_same, hbp]
          · rw [Function.update_noteq hqa]
            refine hAll q (fun hx => ?_)
            rcases List.mem_cons.1 hx with h1 | h2
            · exact hqa (Fin.ext h1)
            · exact hqL h2
      have hsgn : hallSign c b (a :: L) = hallSign c b L := by
        rw [hallSign_cons, dif_pos ha, hbp]
        simp
      rw [if_neg hPt, hsgn]
      by_cases hP : ∀ q : Fin m, (q : ℕ) ∉ a :: L → b q = c q
      · rw [if_pos (hPf.2 hP), if_pos hP]
        ring
      · rw [if_neg (fun h => hP (hPf.1 h)), if_neg hP]
        ring
    | true =>
      have hPf2 : ¬(∀ q : Fin m, (q : ℕ) ∉ L →
          b q = Function.update c ⟨a, ha⟩ false q) := by
        intro hAll
        have h2 := hAll ⟨a, ha⟩ haL
        rw [Function.update_same, hbp] at h2
        exact Bool.noConfusion h2
      have hPt2 : (∀ q : Fin m, (q : ℕ) ∉ L →
          b q = Function.update c ⟨a, ha⟩ true q) ↔
          (∀ q : Fin m, (q : ℕ) ∉ a :: L → b q = c q) := by
        constructor
        · intro hAll q hq
          have hqL : (q : ℕ) ∉ L := fun hx => hq (List.mem_cons_of_mem a hx)
          have hqa : q ≠ ⟨a, ha⟩ := fun hEq =>
            hq (by rw [hEq]; exact List.mem_cons_self a L)
          have h2 := hAll q hqL
          rwa [Function.update_noteq hqa] at h2
        · intro hAll q hqL
          by_cases hqa : q = ⟨a, ha⟩
          · subst hqa
            rw [Function.update_same, hbp]
          · rw [Function.update_noteq hqa]
            refine hAll q (fun hx => ?_)
            rcases List.mem_cons.1 hx with h1 | h2
            · exact hqa (Fin.ext h1)
            · exact hqL h2
      have hsgn : hallSign c b (a :: L) =
          (if c ⟨a, ha⟩ then (-1 : ℂ) else 1) * hallSign c b L := by
        rw [hallSign_cons, dif_pos ha, hbp]
        by_cases hcp : c ⟨a, ha⟩ <;> simp [hcp]
      rw [if_neg hPf2, hsgn]
      by_cases hP : ∀ q : Fin m, (q : ℕ) ∉ a :: L → b q = c q
      · rw [if_pos (hPt2.2 hP), if_pos hP]
        ring
      · rw [if_neg (fun h => hP (hPt2.1 h)), if_neg hP]
        ring

end QCSearch

namespace QCSearch

theorem hAll_indicator {m : ℕ} (c b : Fin m → Bool) :
    applyGates (hAllGates m) (indicator c) b =
      rt2⁻¹ ^ m * hallSign c b (List.range m) := by
  have h := hwall_indicator (List.range m) (List.nodup_range m)
    (fun a ha => List.mem_range.1 ha) c b
  rw [show hAllGates m = (List.range m).map Gate.H from rfl, h, List.length_range,
    if_pos (fun q hq => absurd (List.mem_range.2 q.isLt) hq)]

theorem initState_eq_indicator (m : ℕ) : initState m = indicator (fun _ => false) := rfl

theorem hAll_uniform {m : ℕ} (b : Fin m → Bool) :
    applyGates (hAllGates m) (initState m) b = rt2⁻¹ ^ m := by
  rw [initState_eq_indicator, hAll_indicator, hallSign_first_zero, mul_one]

theorem state_expansion {m : ℕ} (s : QState m) :
    s = fun b => ∑ c : Fin m → Bool, s c * indicator c b := by
  funext b
  simp [indicator, mul_ite]

theorem hAll_at_zero {m : ℕ} (s : QState m) :
    applyGates (hAllGates m) s (fun _ => false) =
      rt2⁻¹ ^ m * ∑ c : Fin m → Bool, s c := by
  conv_lhs => rw [state_expansion s]
  rw [applyGates_sum (hAllGates m) Finset.univ (fun c => fun b => s c * indicator c b)]
  show (∑ c : Fin m → Bool,
      applyGates (hAllGates m) (fun b => s c * indicator c b) (fun _ => false)) = _
  have hterm : ∀ c : Fin m → Bool,
      applyGates (hAllGates m) (fun b => s c * indicator c b) (fun _ : Fin m => false) =
        s c * rt2⁻¹ ^ m := by
    intro c
    rw [applyGates_mul (hAllGates m) (s c) (indicator c)]
    show s c * applyGates (hAllGates m) (indicator c) (fun _ => false) = _
    rw [hAll_indicator c (fun _ => false), hallSign_second_zero, mul_one]
  rw [Finset.sum_congr rfl (fun c _ => hterm c), ← Finset.sum_mul]
  exact mul_comm _ _

theorem applyH_comm {m : ℕ} (q r : Fin m) (hqr : q ≠ r) (s : QState m) :
    applyH q (applyH r s) = applyH r (applyH q s) := by
  have hrq : r ≠ q := Ne.symm hqr
  funext b
  simp only [applyH_eval, Function.update_noteq hrq, Function.update_noteq hqr,
    Function.update_comm hrq]
  ring

theorem applyGate_H_oob {m : ℕ} (a : ℕ) (ha : ¬ a < m) (s : QState m) :
    applyGate (Gate.H a) s = s := dif_neg ha

theorem applyGateH_comm {m : ℕ} (a b2 : ℕ) (s : QState m) :
    applyGate (Gate.H a) (applyGate (Gate.H b2) s) =
      applyGate (Gate.H b2) (applyGate (Gate.H a) s) := by
  by_cases ha : a < m
  · by_cases hb : b2 < m
    · rw [applyGate_H a ha, applyGate_H b2 hb, applyGate_H a ha, applyGate_H b2 hb]
      by_cases hab : (⟨a, ha⟩ : Fin m) = ⟨b2, hb⟩
      · rw [hab]
      · exact applyH_comm _ _ hab s
    · rw [applyGate_H_oob b2 hb, applyGate_H_oob b2 hb]
  · rw [applyGate_H_oob a ha, applyGate_H_oob a ha]

theorem applyGateH_selfinv {m : ℕ} (a : ℕ) (s : QState m) :
    applyGate (Gate.H a) (applyGate (Gate.H a) s) = s := by
  by_cases ha : a < m
  · rw [applyGate_H a ha, applyGate_H a ha, applyH_applyH]
  · rw [applyGate_H_oob a ha, applyGate_H_oob a ha]

theorem hmap_pull {m : ℕ} : ∀ (L : List ℕ) (a : ℕ) (s : QState m),
    applyGates (L.map Gate.H) (applyGate (Gate.H a) s) =
      applyGate (Gate.H a) (applyGates (L.map Gate.H) s)
  | [], _, _ => rfl
  | b2 :: L, a, s => by
    rw [List.map_cons, applyGates_cons, applyGates_cons,
      applyGateH_comm b2 a s, hmap_pull L a (applyGate (Gate.H b2) s)]

theorem hmap_invol {m : ℕ} : ∀ (L : List ℕ) (s : QState m),
    applyGates (L.map Gate.H) (applyGates (L.map Gate.H) s) = s
  | [], _ => rfl
  | a :: L, s => by
    rw [List.map_cons, applyGates_cons, applyGates_cons, hmap_pull L a,
      hmap_invol L (applyGate (Gate.H a) s), applyGateH_selfinv a s]

theorem hAll_invol {m : ℕ} (s : QState m) :
    applyGates (hAllGates m) (applyGates (hAllGates m) s) = s :=
  hmap_invol (List.range m) s

theorem xall_apply {m : ℕ} (s : QState m) (b : Fin m → Bool) :
    applyGates (xAllGates m) s b = s (fun q => !b q) := by
  rw [show xAllGates m = (List.range m).map Gate.X from rfl,
    xmap_fold (List.range m) (List.nodup_range m) (fun a ha => List.mem_range.1 ha) s b]
  congr 1
  funext q
  rw [if_pos (List.mem_range.2 q.isLt)]

end QCSearch

namespace QCSearch

theorem negzero_apply {m : ℕ} (hm : 1 ≤ m) (s : QState m) (b : Fin m → Bool) :
    applyGates (xAllGates m ++ mczGates m ++ xAllGates m) s b =
      if b = (fun _ => false) then -s b else s b := by
  rw [applyGates_append, applyGates_append,
    xall_apply (applyGates (mczGates m) (applyGates (xAllGates m) s)) b,
    mcz_apply hm (applyGates (xAllGates m) s) (fun q => !b q),
    xall_apply s (fun q => !b q)]
  have hnn : s (fun q => !(!b q)) = s b := by
    congr 1
    funext q
    exact Bool.not_not (b q)
  have hcond : (∀ q : Fin m, (!b q) = true) ↔ b = (fun _ => false) := by
    constructor
    · intro h
      funext q
      have h2 := h q
      cases hq : b q
      · rfl
      · rw [hq] at h2
        exact absurd h2 (by simp)
    · intro h q
      rw [h]
      rfl
  by_cases hb : b = (fun _ => false)
  · rw [if_pos (hcond.2 hb), if_pos hb, hnn]
  · rw [if_neg (fun h => hb (hcond.1 h)), if_neg hb, hnn]

theorem diffusion_split (m : ℕ) :
    grover_diffusion_gates m =
      hAllGates m ++ ((xAllGates m ++ mczGates m ++ xAllGates m) ++ hAllGates m) := by
  unfold grover_diffusion_gates
  simp [List.append_assoc]

theorem grover_diffusion_apply {m : ℕ} (hm : 1 ≤ m) (s : QState m) (b : Fin m → Bool) :
    applyGates (grover_diffusion_gates m) s b =
      s b - 2 * (∑ c : Fin m → Bool, s c) / 2 ^ m := by
  rw [diffusion_split, applyGates_append, applyGates_append]
  have hE : applyGates (xAllGates m ++ mczGates m ++ xAllGates m)
      (applyGates (hAllGates m) s) =
      fun x => applyGates (hAllGates m) s x +
        (-2 * applyGates (hAllGates m) s (fun _ => false)) *
          indicator (fun _ => false) x := by
    funext x
    rw [negzero_apply hm]
    by_cases hx : x = (fun _ => false)
    · rw [if_pos hx, hx]
      unfold indicator
      rw [if_pos rfl]
      ring
    · rw [if_neg hx]
      unfold indicator
      rw [if_neg hx]
      ring
  rw [hE]
  simp only [applyGates_add, applyGates_mul]
  rw [hAll_invol s, hAll_indicator (fun _ => false) b, hallSign_first_zero, mul_one,
    hAll_at_zero s]
  have hpow : (rt2⁻¹ : ℂ) ^ m * rt2⁻¹ ^ m = ((2 : ℂ) ^ m)⁻¹ := by
    rw [← mul_pow, ← mul_inv, rt2_mul_self, inv_pow]
  rw [div_eq_mul_inv, ← hpow]
  ring

end QCSearch

namespace QCSearch

theorem run_grover_once_eq {m t : ℕ} (og : List Gate)
    (hog : grover_oracle_checked m t = Except.ok og) :
    run_grover_once m t =
      Except.ok (compute_optimal_iterations m,
        (fun s => applyGates (grover_diffusion_gates m) (applyGates og s))^[
          (compute_optimal_iterations m).toNat] (fun _ => rt2⁻¹ ^ m)) := by
  simp only [run_grover_once, build_grover_circuit, hog]
  have hstate : applyGates (hAllGates m ++
      (List.replicate (compute_optimal_iterations m).toNat
        (og ++ grover_diffusion_gates m)).flatten) (initState m) =
      (fun s => applyGates (grover_diffusion_gates m) (applyGates og s))^[
        (compute_optimal_iterations m).toNat] ((fun _ => rt2⁻¹ ^ m : QState m)) := by
    rw [applyGates_append, applyGates_flatten_replicate]
    have h1 : (fun s2 : QState m => applyGates (og ++ grover_diffusion_gates m) s2) =
        (fun s2 => applyGates (grover_diffusion_gates m) (applyGates og s2)) := by
      funext s2
      rw [applyGates_append]
    have h2 : applyGates (hAllGates m) (initState m) = ((fun _ => rt2⁻¹ ^ m) : QState m) := by
      funext b
      exact hAll_uniform b
    rw [h1, h2]
  rw [hstate]

theorem run_grover_once_error {m t : ℕ} (e : QErr)
    (hog : grover_oracle_checked m t = Except.error e) :
    run_grover_once m t = Except.error e := by
  simp only [run_grover_once, build_grover_circuit, hog]

end QCSearch

namespace QCSearch

/-- C3: the claim says the diffusion gate sequence maps every amplitude `a_i`
to `2·mean − a_i`.  The code's sequence (H-all, X-all, multi-controlled Z,
X-all, H-all) actually maps `a_i` to `−(2·mean − a_i) = a_i − 2·mean`, the
claimed inversion about the mean multiplied by a global phase of `−1`: for
every `n ≥ 1`, state `s` and index `b`, the post-apply amplitude equals the
negation of `2·mean − a_i`, where `mean = (∑ amplitudes) / 2^n`. -/
theorem C3_grover_diffusion_negated_inversion {m : ℕ} (hm : 1 ≤ m)
    (s : QState m) (b : Fin m → Bool) :
    applyGates (grover_diffusion_gates m) s b =
      -(2 * ((∑ c : Fin m → Bool, s c) / 2 ^ m) - s b) := by
  rw [grover_diffusion_apply hm s b]
  ring

theorem C3_witness : 1 ≤ 1 ∧
    applyGates (grover_diffusion_gates 1)
        (indicator (fun _ : Fin 1 => false)) (fun _ => false) =
      -(2 * ((∑ c : Fin 1 → Bool, indicator (fun _ : Fin 1 => false) c) / 2 ^ 1) -
        indicator (fun _ : Fin 1 => false) (fun _ => false)) :=
  ⟨le_refl 1, C3_grover_diffusion_negated_inversion (le_refl 1)
    (indicator (fun _ : Fin 1 => false)) (fun _ => false)⟩

theorem C3_counterexample :
    applyGates (grover_diffusion_gates 1)
        (indicator (fun _ : Fin 1 => false)) (fun _ => true) ≠
      2 * ((∑ c : Fin 1 → Bool, indicator (fun _ : Fin 1 => false) c) / 2 ^ 1) -
        indicator (fun _ : Fin 1 => false) (fun _ => true) := by
  rw [grover_diffusion_apply (le_refl 1)]
  have hsum : (∑ c : Fin 1 → Bool, indicator (fun _ : Fin 1 => false) c) = (1 : ℂ) := by
    simp [indicator]
  have hval : indicator (fun _ : Fin 1 => false) (fun _ => true) = 0 := by
    unfold indicator
    rw [if_neg (fun hEq => Bool.noConfusion (congrFun hEq 0))]
  rw [hsum, hval]
  norm_num

/-- C5: the claim says every out-of-range target is rejected with
`InvalidTarget` before any gate is applied.  In fact `run_grover_once`
performs no target validation at all: it never produces `InvalidTarget`
(for any `n` and any target it either completes the simulation or fails
with qiskit's own `CircuitError` from an out-of-range `qc.x` index). -/
theorem C5_no_invalid_target_validation (m t : ℕ) :
    run_grover_once m t ≠ Except.error QErr.InvalidTarget ∧
    ((∃ p, run_grover_once m t = Except.ok p) ∨
      run_grover_once m t = Except.error QErr.CircuitError) := by
  refine ⟨run_grover_once_no_invalid m t, ?_⟩
  cases hog : grover_oracle_checked m t with
  | ok og => exact Or.inl ⟨_, run_grover_once_eq og hog⟩
  | error e =>
    cases e with
    | CircuitError => exact Or.inr (run_grover_once_error QErr.CircuitError hog)
    | InvalidTarget => exact absurd hog (grover_oracle_checked_no_invalid m t)

theorem C5_counterexample :
    (2 : ℕ) ^ 2 ≤ 5 ∧
    run_grover_once 2 5 ≠ Except.error QErr.InvalidTarget ∧
    ∃ p, run_grover_once 2 5 = Except.ok p :=
  ⟨by norm_num, run_grover_once_no_invalid 2 5,
    ⟨_, run_grover_once_eq
      [Gate.X 1, Gate.H 1, Gate.MCX (List.range 1) 1, Gate.H 1, Gate.X 1] rfl⟩⟩

/-- C7: whenever the oracle builder succeeds (gate list `og`), the run first
puts every qubit into the uniform superposition (amplitude `(√2)⁻¹ ^ n`
everywhere), then applies exactly the planner-computed number of
(oracle, diffusion) pairs in strict alternation with the oracle first in
each round, and the `iterations` value reported in the result record is
exactly the planner's `compute_optimal_iterations n`. -/
theorem C7_circuit_structure {m t : ℕ} (og : List Gate)
    (hog : grover_oracle_checked m t = Except.ok og) :
    run_grover_once m t =
      Except.ok (compute_optimal_iterations m,
        (fun s => applyGates (grover_diffusion_gates m) (applyGates og s))^[
          (compute_optimal_iterations m).toNat] (fun _ => rt2⁻¹ ^ m)) :=
  run_grover_once_eq og hog

theorem C7_witness :
    grover_oracle_checked 1 0 = Except.ok [Gate.X 0, Gate.Z 0, Gate.X 0] ∧
    run_grover_once 1 0 =
      Except.ok (compute_optimal_iterations 1,
        (fun s => applyGates (grover_diffusion_gates 1)
          (applyGates [Gate.X 0, Gate.Z 0, Gate.X 0] s))^[
          (compute_optimal_iterations 1).toNat] (fun _ => rt2⁻¹ ^ 1)) :=
  ⟨rfl, C7_circuit_structure [Gate.X 0, Gate.Z 0, Gate.X 0] rfl⟩

end QCSearch
